import Mathlib

/-!
Verification of the paraxis sparse voxel stores.

Part I embeds `src/lib.rs` (`ZVoxelOctree`): the Morton codec, the ordered
map (`BTreeMap<u64, T>`, modelled as a key-sorted association list), the
query engine, the mutation drain, the compaction engine and the serializer.
Machine integers (`u64`, `u16`, `usize`) are modelled as `Nat`; bitwise
operations use `Nat`'s `&&&`, `|||`, `<<<`, `>>>`, which agree with the
64-bit operations because every value manipulated stays below `2 ^ 64`
(shifts in the source never discard high bits at the widths used here).

Part II embeds the arena-indexed pointer octree of `src/voxels/mod.rs` /
`src/voxel/mod.rs` together with the Morton encoder of
`src/voxels/morton.rs`.
-/

namespace ZV

/-- A 3-d coordinate, modelling `glam::U16Vec3`. Components are `Nat`;
theorems add `< 65536` bounds where the u16 width matters. -/
structure V3 where
  x : Nat
  y : Nat
  z : Nat
deriving DecidableEq, Repr

/-- Embeds `ZVoxelOctree::encode_position` (src/lib.rs:27-37): for `b in 0..16`
and axis `i` in `{x,y,z}`, or the bit `(d >> b) & 1` into the accumulator
at position `b*3 + i + 16`. -/
def encode_position (coords : V3) : Nat :=
  (List.range 16).foldl
    (fun morton_code b =>
      ((morton_code ||| ((coords.x >>> b &&& 1) <<< (b * 3 + 0 + 16)))
                    ||| ((coords.y >>> b &&& 1) <<< (b * 3 + 1 + 16)))
                    ||| ((coords.z >>> b &&& 1) <<< (b * 3 + 2 + 16))) 0

/-- Embeds `ZVoxelOctree::decode_position` (src/lib.rs:38-47): for `b in 0..16`
and axis `i`, or the bit `(code >> ((b*3 + i) + 16)) & 1` into coordinate
`i` at position `b`. -/
def decode_position (code : Nat) : V3 :=
  (List.range 16).foldl
    (fun coords b =>
      { x := coords.x ||| ((code >>> (b * 3 + 0 + 16) &&& 1) <<< b)
        y := coords.y ||| ((code >>> (b * 3 + 1 + 16) &&& 1) <<< b)
        z := coords.z ||| ((code >>> (b * 3 + 2 + 16) &&& 1) <<< b) }) ⟨0, 0, 0⟩

/-- Embeds `ZVoxelOctree::encode_compression` (src/lib.rs:48-54): clear the low
four bits of the position key (`code &= !0b1111`, with `!0b1111` the u64
complement) and or in the compression tag. The source asserts
`compression < 16`; every call site in the claims satisfies it. -/
def encode_compression (coords : V3) (compression : Nat) : Nat :=
  (encode_position coords &&& 0xFFFFFFFFFFFFFFF0) ||| compression

/-- Embeds `ZVoxelOctree::decode_compression` (src/lib.rs:55-57): `code & 0b1111`. -/
def decode_compression (code : Nat) : Nat :=
  code &&& 0b1111

/-- Embeds `ZVoxelOctree::prefix_at_depth` (src/lib.rs:66-70). -/
def prefix_at_depth (code : Nat) (depth : Nat) : Nat :=
  let spatial_bits := 48
  let prefix_bits_to_keep := spatial_bits - depth * 3
  (code >>> 16) >>> (spatial_bits - prefix_bits_to_keep)

/-- One stored entry decoded for a caller, modelling `VoxelData<T>`
(src/lib.rs:15-19). -/
structure VoxelData (T : Type) where
  position : V3
  compression : Nat
  payload : T
deriving DecidableEq, Repr

/-- The ordered map `BTreeMap<u64, T>` is modelled as an association list
kept sorted by strictly increasing key; `mapRange` and iteration then
enumerate entries in ascending key order exactly as `BTreeMap` does. -/
abbrev Store (T : Type) := List (Nat × T)

/-- Embeds `BTreeMap::insert`: replace the entry at the key or insert at the
sorted position. -/
def mapInsert {T : Type} : Store T → Nat → T → Store T
  | [], k, v => [(k, v)]
  | (k', v') :: rest, k, v =>
    if k < k' then (k, v) :: (k', v') :: rest
    else if k = k' then (k, v) :: rest
    else (k', v') :: mapInsert rest k v

/-- Embeds `BTreeMap::remove`: drop the entry at the key, returning the new map
and the removed value (if any). -/
def mapRemove {T : Type} : Store T → Nat → Store T × Option T
  | [], _ => ([], none)
  | (k', v') :: rest, k =>
    if k = k' then (rest, some v')
    else
      let r := mapRemove rest k
      ((k', v') :: r.1, r.2)

/-- Embeds `BTreeMap::range(lo..=hi)`: all entries with key in the closed
interval, in stored (ascending) order. -/
def mapRange {T : Type} (data : Store T) (lo hi : Nat) : Store T :=
  data.filter fun kv => lo ≤ kv.1 ∧ kv.1 ≤ hi

/-- Embeds `ZVoxelOctree::get` (src/lib.rs:77-89): strip the low 16 control bits
from the query key and return the first stored entry whose key lies in
`[spatial_key, spatial_key | 0xFFFF]`. -/
def get {T : Type} (data : Store T) (coords : V3) : Option (VoxelData T) :=
  let coords_key := encode_position coords
  let spatial_key := coords_key &&& 0xFFFFFFFFFFFF0000
  match mapRange data spatial_key (spatial_key ||| 0xFFFF) with
  | [] => none
  | (key, val) :: _ =>
    some { position := coords, compression := decode_compression key, payload := val }

/-- Embeds `ZVoxelOctree::get_neighbours_pfx` (src/lib.rs:123-137): range-scan
every key sharing the depth-level prefix of the coordinate's key. -/
def get_neighbours_pfx {T : Type} (data : Store T) (coords : V3) (depth : Nat) :
    List (VoxelData T) :=
  let code := encode_position coords
  let pfx := code >>> (16 + depth * 3)
  let start_code := pfx <<< (16 + depth * 3)
  let end_code := ((pfx + 1) <<< (16 + depth * 3)) - 1
  (mapRange data start_code end_code).map fun kv =>
    { position := decode_position kv.1
      compression := decode_compression kv.1
      payload := kv.2 }

/-- Embeds `usize::next_power_of_two`, by fuel-bounded recursion (0 maps to 1). -/
def nextPow2F : Nat → Nat → Nat
  | 0, _ => 1
  | fuel + 1, n => if n ≤ 1 then 1 else 2 * nextPow2F fuel ((n + 1) / 2)

/-- Embeds `usize::next_power_of_two`: the smallest power of two `≥ n` (1 for 0). -/
def next_power_of_two (n : Nat) : Nat := nextPow2F 64 n

/-- Embeds `usize::ilog2`, by fuel-bounded recursion: floor of log base 2. -/
def ilog2F : Nat → Nat → Nat
  | 0, _ => 0
  | fuel + 1, n => if n ≤ 1 then 0 else 1 + ilog2F fuel (n / 2)

/-- Embeds `usize::ilog2` (floor log base 2; the source only applies it to
positive arguments). -/
def ilog2 (n : Nat) : Nat := ilog2F 64 n

/-- Embeds `U16Vec3::chebyshev_distance`: the maximum componentwise absolute
difference. -/
def chebyshev_distance (a b : V3) : Nat :=
  max (max (Nat.dist a.x b.x) (Nat.dist a.y b.y)) (Nat.dist a.z b.z)

/-- Embeds `ZVoxelOctree::get_neighbours_area` (src/lib.rs:108-122):
`depth = radius.next_power_of_two().ilog2()`, fetch the depth-level prefix
result, keep entries within Chebyshev distance `radius`. -/
def get_neighbours_area {T : Type} (data : Store T) (coords : V3) (radius : Nat) :
    List (VoxelData T) :=
  let depth := ilog2 (next_power_of_two radius)
  (get_neighbours_pfx data coords depth).filter fun voxel =>
    chebyshev_distance coords voxel.position ≤ radius

/-- Embeds `MutationOp<T>` (src/lib.rs:9-13). -/
inductive MutationOp (T : Type) where
  | insert (position : V3) (value : T)
  | remove (position : V3)

/-- The `Remove` fallback loop of `apply_mutations` (src/lib.rs:182-190):
for `depth in 1..16`, if the depth-level prefix query around the position
returns exactly one entry, remove that entry by its re-encoded key. -/
def remove_fallback {T : Type} (data : Store T) (position : V3) : Store T :=
  (List.range' 1 15).foldl
    (fun d depth =>
      match get_neighbours_pfx d position depth with
      | [voxel] => (mapRemove d (encode_compression voxel.position voxel.compression)).1
      | _ => d) data

/-- One step of `ZVoxelOctree::apply_mutations` (src/lib.rs:173-194):
`Insert` overwrites-or-creates at the full-resolution key; `Remove`
deletes the full-resolution key if present, otherwise runs the
compaction-level fallback loop. -/
def applyOp {T : Type} (data : Store T) : MutationOp T → Store T
  | .insert position value => mapInsert data (encode_position position) value
  | .remove position =>
    let r := mapRemove data (encode_position position)
    match r.2 with
    | some _ => r.1
    | none => remove_fallback r.1 position

/-- Embeds `ZVoxelOctree::apply_mutations`: drain the queued operations
first-in-first-out. -/
def apply_mutations {T : Type} (data : Store T) (ops : List (MutationOp T)) : Store T :=
  ops.foldl applyOp data

/-- The per-key body of `ZVoxelOctree::compress_level` (src/lib.rs:138-164),
threading the map and the `seen_prefixes` set: skip seen prefixes; skip
regions with fewer entries than `2^(3*depth)`; if all payloads in the
region are equal, remove every constituent entry by its position key and
insert one entry at the coarse prefix tagged with the depth. -/
def compress_step {T : Type} [DecidableEq T] (depth : Nat)
    (st : Store T × List Nat) (code : Nat) : Store T × List Nat :=
  let data := st.1
  let seen := st.2
  let pfx := prefix_at_depth code depth
  if pfx ∈ seen then st
  else
    let pos := decode_position code
    let neighbours := get_neighbours_pfx data pos depth
    if neighbours.length < 2 ^ (3 * depth) then st
    else
      match neighbours with
      | [] => st
      | first :: _ =>
        if neighbours.all fun voxel => voxel.payload = first.payload then
          let data' := neighbours.foldl
            (fun d n => (mapRemove d (encode_position n.position)).1) data
          let compressed_code :=
            (pfx <<< (64 - (48 - depth * 3))) ||| (depth &&& 0xF)
          (mapInsert data' compressed_code first.payload, pfx :: seen)
        else (data, pfx :: seen)

/-- Embeds `ZVoxelOctree::compress_level` (src/lib.rs:138-164): fold the step over
a snapshot of the keys in ascending order. -/
def compress_level {T : Type} [DecidableEq T] (data : Store T) (depth : Nat) : Store T :=
  ((data.map Prod.fst).foldl (compress_step depth) (data, [])).1

/-- Embeds `ZVoxelOctree::compress` (src/lib.rs:165-172): run `compress_level` for
each level `1..=depth`. The source drains the mutation queue before and
after each level; the claims invoke `compress` with the queue already
drained, for which those drains are no-ops. -/
def compress {T : Type} [DecidableEq T] (data : Store T) (depth : Nat) : Store T :=
  (List.range' 1 depth).foldl compress_level data

/-- Embeds `bincode::encode_to_vec` with the standard (varint, little-endian)
configuration on a `u16`: one byte for values `≤ 250`, otherwise the
marker byte 251 followed by the two little-endian bytes. -/
def bincode_u16 (v : Nat) : List Nat :=
  if v ≤ 250 then [v] else [251, v % 256, v / 256]

/-- Fuel-bounded body of the padding loop of `serialize_to_bytes`
(src/lib.rs:210-212). -/
def padF : Nat → List Nat → List Nat
  | 0, l => l
  | fuel + 1, l => if 2 ≤ l.length then l else padF fuel (0 :: l)

/-- The padding loop of `serialize_to_bytes` (src/lib.rs:210-212): prepend
zero bytes until the buffer holds at least two bytes. Each iteration grows
the buffer by one byte, so two iterations of fuel always suffice. -/
def pad_two (l : List Nat) : List Nat := padF 2 l

/-- Embeds `ZVoxelOctree::serialize_to_bytes` (src/lib.rs:200-220): per-axis
padded coordinate bytes, the compression tag, and the encoded payload of
every entry, in ascending key order. The payload channel is parametrised
by the payload's bincode encoder `encT`. -/
def serialize_to_bytes {T : Type} (data : Store T) (encT : T → List Nat) :
    List (List Nat × List Nat × List Nat) × List Nat × List (List Nat) :=
  ( data.map fun kv =>
      let position := decode_position kv.1
      ( pad_two (bincode_u16 position.x)
      , pad_two (bincode_u16 position.y)
      , pad_two (bincode_u16 position.z) )
  , data.map fun kv => decode_compression kv.1
  , data.map fun kv => encT kv.2 )

/-- Embeds `ZVoxelOctree::deserialize_from_bytes` (src/lib.rs:221-238): rebuild a
fresh map, reading each coordinate back as the sum of the first two bytes
(`pos[i][0] as u16 + pos[i][1] as u16`), re-deriving the key via
`encode_compression`, and decoding the payload with the payload's bincode
decoder `decT` (the source unwraps the decode; the claims only feed it
bytes produced by the matching encoder, on which it succeeds). -/
def deserialize_from_bytes {T : Type}
    (bytes : List (List Nat × List Nat × List Nat) × List Nat × List (List Nat))
    (decT : List Nat → T) : Store T :=
  (bytes.1.zip (bytes.2.1.zip bytes.2.2)).foldl
    (fun acc entry =>
      let pos := entry.1
      let com := entry.2.1
      let pay := entry.2.2
      let position : V3 :=
        { x := pos.1.getD 0 0 + pos.1.getD 1 0
          y := pos.2.1.getD 0 0 + pos.2.1.getD 1 0
          z := pos.2.2.getD 0 0 + pos.2.2.getD 1 0 }
      mapInsert acc (encode_compression position com) (decT pay)) []


/-- Scenario store for the radius-box claims: the five labelled points
(0,0,0),(1,1,1),(2,2,2),(5,5,5),(10,10,10) with payloads 0..4, inserted
through the mutation queue and drained. -/
def store5 : Store Nat :=
  apply_mutations []
    [ .insert ⟨0, 0, 0⟩ 0, .insert ⟨1, 1, 1⟩ 1, .insert ⟨2, 2, 2⟩ 2
    , .insert ⟨5, 5, 5⟩ 3, .insert ⟨10, 10, 10⟩ 4 ]

/-- Scenario store for the compaction claims: the eight corners of the
unit cube, payload `true`, inserted in the order of the source's
`compression` test and drained. -/
def store8 : Store Bool :=
  apply_mutations []
    [ .insert ⟨0, 0, 1⟩ true, .insert ⟨0, 1, 0⟩ true, .insert ⟨0, 1, 1⟩ true
    , .insert ⟨1, 0, 0⟩ true, .insert ⟨1, 0, 1⟩ true, .insert ⟨1, 1, 0⟩ true
    , .insert ⟨1, 1, 1⟩ true, .insert ⟨0, 0, 0⟩ true ]

/-- The eight corner coordinates of the unit cube. -/
def corners8 : List V3 :=
  [⟨0, 0, 0⟩, ⟨0, 0, 1⟩, ⟨0, 1, 0⟩, ⟨0, 1, 1⟩, ⟨1, 0, 0⟩, ⟨1, 0, 1⟩, ⟨1, 1, 0⟩, ⟨1, 1, 1⟩]

/-- A store reachable through the public interface (compress the eight
unit-cube corners to the level-1 entry with key 1, then re-insert the
eight corners through the queue and drain): it holds the eight
full-resolution corner keys and the level-1 compacted key 1, all with
payload `true`. -/
def store9 : Store Bool := mapInsert store8 1 true

/-- Scenario store for the prefix-containment claim: entries at (0,0,0)
and (2,0,0), drained. -/
def store2 : Store Bool :=
  apply_mutations [] [.insert ⟨0, 0, 0⟩ true, .insert ⟨2, 0, 0⟩ true]

/-- Scenario store for the serialization claim: one full-resolution entry
at (251,0,0) with payload `true`, drained. -/
def store251 : Store Bool :=
  apply_mutations [] [.insert ⟨251, 0, 0⟩ true]

/-- Models `bincode::encode_to_vec` with the standard configuration on a
`bool`: one byte, 0 or 1. -/
def bincode_bool_enc (b : Bool) : List Nat := [if b then 1 else 0]

/-- Models `bincode::decode_from_slice` with the standard configuration on
a `bool` (total on the encoder's outputs, on which it always succeeds). -/
def bincode_bool_dec (l : List Nat) : Bool := l.getD 0 0 = 1

/-- Scenario store for the remove-drain claim: the single full-resolution
entry at (0,0,0) with payload 42, drained. -/
def store1pt : Store Nat := apply_mutations [] [.insert ⟨0, 0, 0⟩ 42]

/-- Selects the axis component `coords.iter().enumerate()` walks:
0 is x, 1 is y, anything else is z (only 0, 1, 2 occur). -/
def axis (c : V3) : Nat → Nat
  | 0 => c.x
  | 1 => c.y
  | _ => c.z

end ZV

namespace SVO

/-- Embeds `Morton::split_by_3` of src/voxels/morton.rs:9-17. Intermediate
`u64` shifts there can push bits past position 63, which `u64` discards;
the masks applied immediately after each shift keep only bits below 61, so
the untruncated `Nat` computation produces the same value. -/
def split_by_3 (a : Nat) : Nat :=
  let x := a &&& 0x1fffff
  let x := (x ||| x <<< 32) &&& 0x1f00000000ffff
  let x := (x ||| x <<< 16) &&& 0x1f0000ff0000ff
  let x := (x ||| x <<< 8) &&& 0x100f00f00f00f00f
  let x := (x ||| x <<< 4) &&& 0x10c30c30c30c30c3
  let x := (x ||| x <<< 2) &&& 0x1249249249249249
  x

/-- Embeds `Morton::encode` of src/voxels/morton.rs:18-22 (the `<< 1` at
the end is the source's final shift; all bits stay below position 64). -/
def encode (x y z : Nat) : Nat :=
  (split_by_3 x ||| split_by_3 y <<< 1 ||| split_by_3 z <<< 2) <<< 1

/-- Embeds `Voxel` of src/voxels/mod.rs:33-37 / src/voxel/mod.rs:5-9: eight
optional child indices into the arena plus a material tag. -/
structure Voxel where
  children : Fin 8 → Option Nat
  material : Nat

/-- Embeds `Voxel::empty` (children all absent, material 0). -/
def Voxel.emptyNode : Voxel := ⟨fun _ => none, 0⟩

/-- Embeds `Voxel::is_empty`: no child present. -/
def Voxel.isEmptyNode (v : Voxel) : Bool :=
  (List.finRange 8).all fun d => (v.children d).isNone

/-- Arena read `self.voxels[i]`; total via a default (every access in the
source is in bounds under the invariants proved below). -/
def getV (vs : List Voxel) (i : Nat) : Voxel := vs.getD i Voxel.emptyNode

/-- Arena write `self.voxels[i] = v`. -/
def setV (vs : List Voxel) (i : Nat) (v : Voxel) : List Voxel := vs.set i v

/-- Arena write `self.voxels[i].children[d] = j`. -/
def setChild (vs : List Voxel) (i : Nat) (d : Fin 8) (j : Option Nat) : List Voxel :=
  setV vs i { getV vs i with children := Function.update (getV vs i).children d j }

/-- Arena write `self.voxels[i].material = m`. -/
def setMat (vs : List Voxel) (i : Nat) (m : Nat) : List Voxel :=
  setV vs i { getV vs i with material := m }

/-- Embeds the per-level descent digit `(code >> (level * 3)) & 0b111` of
src/voxels/mod.rs:72 / src/voxel/mod.rs:42. -/
def childIndex (code : Nat) (level : Nat) : Fin 8 :=
  ⟨code >>> (level * 3) &&& 0b111, Nat.lt_succ_of_le Nat.and_le_right⟩

/-- Descent digits for `level in (0..depth).rev()`: coarsest digit first. -/
def descDigits (code : Nat) : Nat → List (Fin 8)
  | 0 => []
  | d + 1 => childIndex code d :: descDigits code d

/-- Embeds `u32::trailing_zeros`, by fuel-bounded recursion (32 for 0). -/
def tzF : Nat → Nat → Nat
  | 0, _ => 0
  | fuel + 1, n => if n % 2 = 1 then 0 else 1 + tzF fuel (n / 2)

/-- Embeds `u32::trailing_zeros`. -/
def trailing_zeros (n : Nat) : Nat := tzF 32 n

/-- Embeds the descent loop of `SparseVoxelOctree::insert`
(src/voxels/mod.rs:67-81 / src/voxel/mod.rs:37-51): follow the digit path,
allocating a fresh arena node (link in the parent, push an empty voxel)
whenever the required child is absent; set the terminal node's material. -/
def insertGo (vs : List Voxel) (i : Nat) (m : Nat) : List (Fin 8) → List Voxel
  | [] => setMat vs i m
  | d :: rest =>
    match (getV vs i).children d with
    | some j => insertGo vs j m rest
    | none =>
      let n := vs.length
      insertGo (setChild vs i d (some n) ++ [Voxel.emptyNode]) n m rest

/-- Embeds the descent loop of `SparseVoxelOctree::remove`
(src/voxels/mod.rs:87-96): follow the digit path recording the
(parent index, child slot) stack (LIFO: the deepest pair comes first in
the returned list); `none` models the early `return` when a child is
absent. -/
def descendGo (vs : List Voxel) (i : Nat) (stack : List (Nat × Fin 8)) :
    List (Fin 8) → Option (Nat × List (Nat × Fin 8))
  | [] => some (i, stack)
  | d :: rest =>
    match (getV vs i).children d with
    | some j => descendGo vs j ((i, d) :: stack) rest
    | none => none

/-- Embeds the unwinding loop of `SparseVoxelOctree::remove`
(src/voxels/mod.rs:98-105): unlink the current node from its parent while
it has no children and carries material 0, stopping at the first node that
fails the test. -/
def pruneGo (vs : List Voxel) (i : Nat) : List (Nat × Fin 8) → List Voxel
  | [] => vs
  | (p, d) :: rest =>
    if (getV vs i).isEmptyNode ∧ (getV vs i).material = 0 then
      pruneGo (setChild vs p d none) p rest
    else vs

/-- Embeds `SparseVoxelOctree::remove` on a digit path: descend (state
unchanged if the path is broken), zero the leaf's material, unwind. -/
def removePath (vs : List Voxel) (digits : List (Fin 8)) : List Voxel :=
  match descendGo vs 0 [] digits with
  | none => vs
  | some (leaf, stack) => pruneGo (setMat vs leaf 0) leaf stack

/-- Embeds the descent loop of `SparseVoxelOctree::get`
(src/voxel/mod.rs:77-89): follow the digit path, reporting absent the
moment a required child is missing, otherwise the terminal node. -/
def getGo (vs : List Voxel) (i : Nat) : List (Fin 8) → Option Voxel
  | [] => some (getV vs i)
  | d :: rest =>
    match (getV vs i).children d with
    | some j => getGo vs j rest
    | none => none

/-- Embeds `SparseVoxelOctree` (src/voxels/mod.rs:51-55 /
src/voxel/mod.rs:23-26): the arena and the power-of-two size. (The
`origin` field of the voxels/ variant plays no role in insert, remove or
get.) -/
structure Octree where
  voxels : List Voxel
  size : Nat

/-- Embeds `SparseVoxelOctree::empty`: a root voxel with no children and
material `u32::MAX`. -/
def Octree.emptyTree (size : Nat) : Octree :=
  ⟨[⟨fun _ => none, 4294967295⟩], size⟩

/-- Embeds `SparseVoxelOctree::insert(x, y, z, material)`. -/
def Octree.insert (t : Octree) (x y z m : Nat) : Octree :=
  { t with voxels :=
      insertGo t.voxels 0 m (descDigits (encode x y z) (trailing_zeros t.size)) }

/-- Embeds `SparseVoxelOctree::remove(x, y, z)`. -/
def Octree.remove (t : Octree) (x y z : Nat) : Octree :=
  { t with voxels :=
      removePath t.voxels (descDigits (encode x y z) (trailing_zeros t.size)) }

/-- Embeds `SparseVoxelOctree::get(x, y, z)` (src/voxel/mod.rs:77-89). -/
def Octree.get (t : Octree) (x y z : Nat) : Option Voxel :=
  getGo t.voxels 0 (descDigits (encode x y z) (trailing_zeros t.size))

/-- Every cell of the n-cubed volume, in the nested x/y/z loop order of the
source's `stress_insert_remove` test. -/
def allCells (n : Nat) : List (Nat × Nat × Nat) :=
  (List.range n).flatMap fun x =>
    (List.range n).flatMap fun y =>
      (List.range n).map fun z => (x, y, z)

/-- Inserts every listed cell with the given material. -/
def insertAll (t : Octree) (cells : List (Nat × Nat × Nat)) (m : Nat) : Octree :=
  cells.foldl (fun t c => t.insert c.1 c.2.1 c.2.2 m) t

/-- Removes every listed cell. -/
def removeAll (t : Octree) (cells : List (Nat × Nat × Nat)) : Octree :=
  cells.foldl (fun t c => t.remove c.1 c.2.1 c.2.2) t

/-- Proof device: descending the digit path from node `i` reaches node `j`. -/
def nodeAt (vs : List Voxel) : Nat → List (Fin 8) → Nat → Prop
  | i, [], j => j = i
  | i, d :: rest, j => ∃ t, (getV vs i).children d = some t ∧ nodeAt vs t rest j

/-- Proof device: the digit path `p` is fully linked starting at node `i`. -/
def hasPath (vs : List Voxel) (i : Nat) (p : List (Fin 8)) : Prop :=
  ∃ j, nodeAt vs i p j

/-- Arena invariant: every child link points strictly forward and into the
arena (`insert` only ever links the freshly pushed index). -/
def boundsInv (vs : List Voxel) : Prop :=
  ∀ i (d : Fin 8) j, (getV vs i).children d = some j → i < j ∧ j < vs.length

/-- Arena invariant: every node has at most one incoming link. -/
def singleParentInv (vs : List Voxel) : Prop :=
  ∀ i (d : Fin 8) i' (d' : Fin 8) j,
    (getV vs i).children d = some j → (getV vs i').children d' = some j →
    i = i' ∧ d = d'

/-- Tree invariant at descent depth `D`: nodes reached by a full-depth path
have no children. -/
def leafInv (vs : List Voxel) (D : Nat) : Prop :=
  ∀ p j, p.length = D → nodeAt vs 0 p j → ∀ d, (getV vs j).children d = none

/-- Tree invariant at descent depth `D`: strictly interior reachable nodes
(neither the root nor a full-depth leaf) carry material 0. -/
def matInv (vs : List Voxel) (D : Nat) : Prop :=
  ∀ p j, 0 < p.length → p.length < D → nodeAt vs 0 p j → (getV vs j).material = 0

/-- Tree invariant at descent depth `D`: no strictly interior reachable
node is childless. -/
def stubInv (vs : List Voxel) (D : Nat) : Prop :=
  ∀ p j, 0 < p.length → p.length < D → nodeAt vs 0 p j →
    ∃ (d : Fin 8) (t : Nat), (getV vs j).children d = some t

/-- The conjunction of all arena/tree invariants at depth `D`. -/
def Inv (vs : List Voxel) (D : Nat) : Prop :=
  boundsInv vs ∧ singleParentInv vs ∧ leafInv vs D ∧ matInv vs D ∧ stubInv vs D

/-- Proof device: link-wise inclusion between arenas (every child link of
the first is a child link of the second). -/
def linkLe (vs vs' : List Voxel) : Prop :=
  ∀ i (d : Fin 8) j, (getV vs i).children d = some j → (getV vs' i).children d = some j

/-- Proof device: the parent stack built by `remove`'s descent, paired with
the digit path of the current node. Each stack entry links its parent (a
node on the path) to the node below it; the deepest pair comes first. -/
def isChainPath (vs : List Voxel) : List (Fin 8) → Nat → List (Nat × Fin 8) → Prop
  | curPath, _, [] => curPath = []
  | curPath, cur, (par, d) :: rest =>
    ∃ pref, curPath = pref ++ [d] ∧ nodeAt vs 0 pref par ∧
      (getV vs par).children d = some cur ∧ isChainPath vs pref par rest

end SVO
namespace ZV

/-- A single coordinate bit shifted into place: its only set bit (if any)
sits at `pos`, and it is set exactly when bit `b` of `x` is. -/
theorem testBit_bit_shift (x b pos j : Nat) :
    ((x >>> b &&& 1) <<< pos).testBit j = (decide (j = pos) && x.testBit b) := by
  rw [Nat.testBit_shiftLeft]
  rcases lt_trichotomy j pos with h | h | h
  · simp [Nat.not_le.mpr h, Nat.ne_of_lt h]
  · subst h
    simp only [ge_iff_le, le_refl, decide_True, Bool.true_and, Nat.sub_self]
    rw [Nat.and_one_is_mod, Nat.testBit_zero, Nat.shiftRight_eq_div_pow,
      Nat.testBit_to_div_mod]
    have : x / 2 ^ b % 2 % 2 = x / 2 ^ b % 2 :=
      Nat.mod_eq_of_lt (Nat.mod_lt _ (by omega))
    rw [this]
  · have h1 : x >>> b &&& 1 < 2 ^ (j - pos) := by
      have h0 : x >>> b &&& 1 ≤ 1 := Nat.and_le_right
      have h2 : (1 : Nat) < 2 ^ (j - pos) := by
        have : 0 < j - pos := Nat.sub_pos_of_lt h
        calc (1 : Nat) < 2 ^ 1 := by omega
          _ ≤ 2 ^ (j - pos) := Nat.pow_le_pow_right (by omega) this
      omega
    rw [Nat.testBit_eq_false_of_lt h1]
    simp [Nat.ne_of_gt h]

/-- Bit-level characterisation of the partial encoding fold. -/
theorem encodeAux_testBit (c : V3) : ∀ n j,
    (((List.range n).foldl
      (fun morton_code b =>
        ((morton_code ||| ((c.x >>> b &&& 1) <<< (b * 3 + 0 + 16)))
                      ||| ((c.y >>> b &&& 1) <<< (b * 3 + 1 + 16)))
                      ||| ((c.z >>> b &&& 1) <<< (b * 3 + 2 + 16))) 0).testBit j = true ↔
      ∃ b, b < n ∧ ∃ i, i < 3 ∧ j = b * 3 + i + 16 ∧ (axis c i).testBit b = true) := by
  intro n
  induction n with
  | zero => simp [Nat.zero_testBit]
  | succ n ih =>
    intro j
    rw [List.range_succ, List.foldl_append]
    simp only [List.foldl_cons, List.foldl_nil]
    rw [Nat.testBit_lor, Nat.testBit_lor, Nat.testBit_lor]
    rw [testBit_bit_shift, testBit_bit_shift, testBit_bit_shift]
    simp only [Bool.or_eq_true, Bool.and_eq_true, decide_eq_true_eq, ih]
    constructor
    · rintro (((⟨b, hb, i, hi, rfl, hbit⟩ | ⟨rfl, hx⟩) | ⟨rfl, hy⟩) | ⟨rfl, hz⟩)
      · exact ⟨b, Nat.lt_succ_of_lt hb, i, hi, rfl, hbit⟩
      · exact ⟨n, Nat.lt_succ_self n, 0, by omega, rfl, hx⟩
      · exact ⟨n, Nat.lt_succ_self n, 1, by omega, rfl, hy⟩
      · exact ⟨n, Nat.lt_succ_self n, 2, by omega, rfl, hz⟩
    · rintro ⟨b, hb, i, hi, rfl, hbit⟩
      rcases Nat.lt_succ_iff_lt_or_eq.mp hb with hb' | rfl
      · exact Or.inl (Or.inl (Or.inl ⟨b, hb', i, hi, rfl, hbit⟩))
      · interval_cases i
        · exact Or.inl (Or.inl (Or.inr ⟨rfl, hbit⟩))
        · exact Or.inl (Or.inr ⟨rfl, hbit⟩)
        · exact Or.inr ⟨rfl, hbit⟩

/-- Bit-level characterisation of `encode_position`. -/
theorem encode_position_testBit (c : V3) (j : Nat) :
    (encode_position c).testBit j = true ↔
      ∃ b, b < 16 ∧ ∃ i, i < 3 ∧ j = b * 3 + i + 16 ∧ (axis c i).testBit b = true :=
  encodeAux_testBit c 16 j

/-- Numbers with no set bit at or above position `n` are below `2 ^ n`. -/
theorem lt_two_pow_of_high_bits {x n : Nat}
    (h : ∀ j, n ≤ j → x.testBit j = false) : x < 2 ^ n := by
  have hx : x = x % 2 ^ n := by
    refine Nat.eq_of_testBit_eq fun i => ?_
    rw [Nat.testBit_mod_two_pow]
    by_cases hi : i < n
    · simp [hi]
    · simp [hi, h i (Nat.le_of_not_lt hi)]
  rw [hx]
  exact Nat.mod_lt _ (Nat.pos_pow_of_pos n (by omega))

/-- Position keys fit in 64 bits. -/
theorem encode_position_lt (c : V3) : encode_position c < 2 ^ 64 := by
  refine lt_two_pow_of_high_bits fun j hj => ?_
  by_contra hbit
  rcases (encode_position_testBit c j).mp (by simpa using hbit) with ⟨b, hb, i, hi, rfl, _⟩
  omega

/-- Position keys have zero low 16 bits. -/
theorem encode_position_mod (c : V3) : encode_position c % 2 ^ 16 = 0 := by
  refine Nat.eq_of_testBit_eq fun i => ?_
  rw [Nat.testBit_mod_two_pow, Nat.zero_testBit]
  by_cases hi : i < 16
  · simp only [hi, decide_True, Bool.true_and]
    by_contra hbit
    rcases (encode_position_testBit c i).mp (by simpa using hbit) with ⟨b, hb, i', hi', h, _⟩
    omega
  · simp [hi]

/-- The exact bit of a position key at an interleaved position. -/
theorem encode_position_bit (c : V3) (b i : Nat) (hb : b < 16) (hi : i < 3) :
    (encode_position c).testBit (b * 3 + i + 16) = (axis c i).testBit b := by
  rw [Bool.eq_iff_iff, encode_position_testBit]
  constructor
  · rintro ⟨b', hb', i', hi', h, hbit⟩
    have : b' = b ∧ i' = i := by omega
    rcases this with ⟨rfl, rfl⟩
    exact hbit
  · intro hbit
    exact ⟨b, hb, i, hi, rfl, hbit⟩

/-- Bit-level characterisation of the decoding fold, all three components
at once. -/
theorem decodeAux_testBit (code : Nat) : ∀ n,
    (∀ j, ((List.range n).foldl
      (fun coords b =>
        ({ x := coords.x ||| ((code >>> (b * 3 + 0 + 16) &&& 1) <<< b)
           y := coords.y ||| ((code >>> (b * 3 + 1 + 16) &&& 1) <<< b)
           z := coords.z ||| ((code >>> (b * 3 + 2 + 16) &&& 1) <<< b) } : V3))
      (⟨0, 0, 0⟩ : V3)).x.testBit j = true ↔
        j < n ∧ code.testBit (j * 3 + 0 + 16) = true) ∧
    (∀ j, ((List.range n).foldl
      (fun coords b =>
        ({ x := coords.x ||| ((code >>> (b * 3 + 0 + 16) &&& 1) <<< b)
           y := coords.y ||| ((code >>> (b * 3 + 1 + 16) &&& 1) <<< b)
           z := coords.z ||| ((code >>> (b * 3 + 2 + 16) &&& 1) <<< b) } : V3))
      (⟨0, 0, 0⟩ : V3)).y.testBit j = true ↔
        j < n ∧ code.testBit (j * 3 + 1 + 16) = true) ∧
    (∀ j, ((List.range n).foldl
      (fun coords b =>
        ({ x := coords.x ||| ((code >>> (b * 3 + 0 + 16) &&& 1) <<< b)
           y := coords.y ||| ((code >>> (b * 3 + 1 + 16) &&& 1) <<< b)
           z := coords.z ||| ((code >>> (b * 3 + 2 + 16) &&& 1) <<< b) } : V3))
      (⟨0, 0, 0⟩ : V3)).z.testBit j = true ↔
        j < n ∧ code.testBit (j * 3 + 2 + 16) = true) := by
  intro n
  induction n with
  | zero => simp [Nat.zero_testBit]
  | succ n ih =>
    obtain ⟨ihx, ihy, ihz⟩ := ih
    rw [List.range_succ]
    simp only [List.foldl_append, List.foldl_cons, List.foldl_nil]
    refine ⟨fun j => ?_, fun j => ?_, fun j => ?_⟩
    · rw [Nat.testBit_lor, testBit_bit_shift]
      simp only [Bool.or_eq_true, Bool.and_eq_true, decide_eq_true_eq, ihx]
      constructor
      · rintro (⟨hj, hbit⟩ | ⟨rfl, hbit⟩)
        · exact ⟨Nat.lt_succ_of_lt hj, hbit⟩
        · exact ⟨Nat.lt_succ_self _, hbit⟩
      · rintro ⟨hj, hbit⟩
        rcases Nat.lt_succ_iff_lt_or_eq.mp hj with hj' | rfl
        · exact Or.inl ⟨hj', hbit⟩
        · exact Or.inr ⟨rfl, hbit⟩
    · rw [Nat.testBit_lor, testBit_bit_shift]
      simp only [Bool.or_eq_true, Bool.and_eq_true, decide_eq_true_eq, ihy]
      constructor
      · rintro (⟨hj, hbit⟩ | ⟨rfl, hbit⟩)
        · exact ⟨Nat.lt_succ_of_lt hj, hbit⟩
        · exact ⟨Nat.lt_succ_self _, hbit⟩
      · rintro ⟨hj, hbit⟩
        rcases Nat.lt_succ_iff_lt_or_eq.mp hj with hj' | rfl
        · exact Or.inl ⟨hj', hbit⟩
        · exact Or.inr ⟨rfl, hbit⟩
    · rw [Nat.testBit_lor, testBit_bit_shift]
      simp only [Bool.or_eq_true, Bool.and_eq_true, decide_eq_true_eq, ihz]
      constructor
      · rintro (⟨hj, hbit⟩ | ⟨rfl, hbit⟩)
        · exact ⟨Nat.lt_succ_of_lt hj, hbit⟩
        · exact ⟨Nat.lt_succ_self _, hbit⟩
      · rintro ⟨hj, hbit⟩
        rcases Nat.lt_succ_iff_lt_or_eq.mp hj with hj' | rfl
        · exact Or.inl ⟨hj', hbit⟩
        · exact Or.inr ⟨rfl, hbit⟩

/-- Bit-level characterisation of `decode_position`, component-wise. -/
theorem decode_position_testBit (code : Nat) :
    (∀ j, (decode_position code).x.testBit j = true ↔
        j < 16 ∧ code.testBit (j * 3 + 0 + 16) = true) ∧
    (∀ j, (decode_position code).y.testBit j = true ↔
        j < 16 ∧ code.testBit (j * 3 + 1 + 16) = true) ∧
    (∀ j, (decode_position code).z.testBit j = true ↔
        j < 16 ∧ code.testBit (j * 3 + 2 + 16) = true) := by
  simp only [decode_position]
  exact decodeAux_testBit code 16

end ZV
namespace ZV

/-- Components of the decoded encoding equal the original coordinates when
they fit in 16 bits. -/
theorem decode_encode_x (c : V3) (hx : c.x < 65536) :
    (decode_position (encode_position c)).x = c.x := by
  obtain ⟨hx', _, _⟩ := decode_position_testBit (encode_position c)
  refine Nat.eq_of_testBit_eq fun j => ?_
  rw [Bool.eq_iff_iff, hx' j]
  constructor
  · rintro ⟨hj, hbit⟩
    rwa [encode_position_bit c j 0 hj (by omega)] at hbit
  · intro hbit
    have hj : j < 16 := by
      by_contra hj
      have hpow : (65536 : Nat) ≤ 2 ^ j := by
        calc (65536 : Nat) = 2 ^ 16 := by norm_num
          _ ≤ 2 ^ j := Nat.pow_le_pow_right (by omega) (Nat.le_of_not_lt hj)
      rw [Nat.testBit_eq_false_of_lt (lt_of_lt_of_le hx hpow)] at hbit
      exact absurd hbit (by simp)
    exact ⟨hj, by rwa [encode_position_bit c j 0 hj (by omega)]⟩

/-- Same for the y component. -/
theorem decode_encode_y (c : V3) (hy : c.y < 65536) :
    (decode_position (encode_position c)).y = c.y := by
  obtain ⟨_, hy', _⟩ := decode_position_testBit (encode_position c)
  refine Nat.eq_of_testBit_eq fun j => ?_
  rw [Bool.eq_iff_iff, hy' j]
  constructor
  · rintro ⟨hj, hbit⟩
    rwa [encode_position_bit c j 1 hj (by omega)] at hbit
  · intro hbit
    have hj : j < 16 := by
      by_contra hj
      have hpow : (65536 : Nat) ≤ 2 ^ j := by
        calc (65536 : Nat) = 2 ^ 16 := by norm_num
          _ ≤ 2 ^ j := Nat.pow_le_pow_right (by omega) (Nat.le_of_not_lt hj)
      rw [Nat.testBit_eq_false_of_lt (lt_of_lt_of_le hy hpow)] at hbit
      exact absurd hbit (by simp)
    exact ⟨hj, by rwa [encode_position_bit c j 1 hj (by omega)]⟩

/-- Same for the z component. -/
theorem decode_encode_z (c : V3) (hz : c.z < 65536) :
    (decode_position (encode_position c)).z = c.z := by
  obtain ⟨_, _, hz'⟩ := decode_position_testBit (encode_position c)
  refine Nat.eq_of_testBit_eq fun j => ?_
  rw [Bool.eq_iff_iff, hz' j]
  constructor
  · rintro ⟨hj, hbit⟩
    rwa [encode_position_bit c j 2 hj (by omega)] at hbit
  · intro hbit
    have hj : j < 16 := by
      by_contra hj
      have hpow : (65536 : Nat) ≤ 2 ^ j := by
        calc (65536 : Nat) = 2 ^ 16 := by norm_num
          _ ≤ 2 ^ j := Nat.pow_le_pow_right (by omega) (Nat.le_of_not_lt hj)
      rw [Nat.testBit_eq_false_of_lt (lt_of_lt_of_le hz hpow)] at hbit
      exact absurd hbit (by simp)
    exact ⟨hj, by rwa [encode_position_bit c j 2 hj (by omega)]⟩

/-- Decoding inverts encoding on in-range coordinates. -/
theorem decode_encode (c : V3) (hx : c.x < 65536) (hy : c.y < 65536) (hz : c.z < 65536) :
    decode_position (encode_position c) = c := by
  have hrepr : decode_position (encode_position c) =
      (⟨(decode_position (encode_position c)).x,
        (decode_position (encode_position c)).y,
        (decode_position (encode_position c)).z⟩ : V3) := rfl
  rw [hrepr, decode_encode_x c hx, decode_encode_y c hy, decode_encode_z c hz]

/-- Adding a low part below `2 ^ k` to a multiple of `2 ^ k` concatenates
the bit patterns. -/
theorem testBit_mul_pow_add (q r k j : Nat) (hr : r < 2 ^ k) :
    (q * 2 ^ k + r).testBit j =
      if j < k then r.testBit j else q.testBit (j - k) := by
  by_cases hj : j < k
  · simp only [hj, if_true]
    have key : (q * 2 ^ k + r) / 2 ^ j % 2 = r / 2 ^ j % 2 := by
      have hrw : q * 2 ^ k + r = r + 2 ^ j * (q * 2 ^ (k - j)) := by
        rw [← Nat.mul_assoc, Nat.mul_comm (2 ^ j), Nat.mul_assoc, ← Nat.pow_add]
        have : j + (k - j) = k := by omega
        rw [this]
        omega
      rw [hrw, Nat.add_mul_div_left _ _ (Nat.pos_pow_of_pos j (by omega))]
      have heven : q * 2 ^ (k - j) % 2 = 0 := by
        have hksp : (2 : Nat) ^ (k - j) = 2 * 2 ^ (k - j - 1) := by
          rw [← Nat.pow_succ']
          congr 1
          omega
        rw [hksp, ← Nat.mul_assoc, Nat.mul_comm q 2, Nat.mul_assoc, Nat.mul_mod_right]
      omega
    rw [Nat.testBit_to_div_mod, Nat.testBit_to_div_mod, key]
  · simp only [hj, if_false]
    have key : (q * 2 ^ k + r) / 2 ^ j = q / 2 ^ (j - k) := by
      have hsplit : (2 : Nat) ^ j = 2 ^ k * 2 ^ (j - k) := by
        rw [← Nat.pow_add]
        congr 1
        omega
      rw [hsplit, ← Nat.div_div_eq_div_mul]
      have h2 : (q * 2 ^ k + r) / 2 ^ k = q := by
        rw [Nat.add_comm, Nat.mul_comm, Nat.add_mul_div_left _ _ (Nat.pos_pow_of_pos k (by omega)),
          Nat.div_eq_of_lt hr]
        omega
      rw [h2]
    rw [Nat.testBit_to_div_mod, Nat.testBit_to_div_mod, key]

/-- Oring the 16 low one-bits into a 16-bit-aligned key is an addition. -/
theorem lor_ffff (x : Nat) (hx : x % 65536 = 0) : x ||| 65535 = x + 65535 := by
  have hq : x = x / 65536 * 65536 := (Nat.div_mul_cancel (Nat.dvd_of_mod_eq_zero hx)).symm
  refine Nat.eq_of_testBit_eq fun j => ?_
  have hA := testBit_mul_pow_add (x / 65536) 65535 16 j (by norm_num)
  have hB := testBit_mul_pow_add (x / 65536) 0 16 j (by norm_num)
  norm_num at hA hB
  rw [Nat.testBit_lor]
  conv_lhs => rw [hq]
  conv_rhs => rw [hq]
  rw [hA, hB]
  have h65535 : (65535 : Nat) = 2 ^ 16 - 1 := by norm_num
  by_cases hj : j < 16
  · have hfbit : Nat.testBit 65535 j = true := by
      rw [h65535, Nat.testBit_two_pow_sub_one]
      simpa using hj
    simp [hj, hfbit]
  · have hfbit : Nat.testBit 65535 j = false := by
      rw [h65535, Nat.testBit_two_pow_sub_one]
      simpa using hj
    simp [hj, hfbit]

/-- Masking the 16 control bits off a position key is the identity: the key
has no set bit there or at position 64 and above. -/
theorem spatial_key_eq (c : V3) :
    encode_position c &&& 0xFFFFFFFFFFFF0000 = encode_position c := by
  refine Nat.eq_of_testBit_eq fun j => ?_
  rw [Nat.testBit_land]
  by_cases h16 : j < 16
  · have he : (encode_position c).testBit j = false := by
      by_contra hb
      rcases (encode_position_testBit c j).mp (by simpa using hb) with ⟨b, _, i, _, rfl, _⟩
      omega
    simp [he]
  · by_cases h64 : j < 64
    · have hM : (0xFFFFFFFFFFFF0000 : Nat).testBit j = true := by
        have hMv : (0xFFFFFFFFFFFF0000 : Nat) = (2 ^ 48 - 1) <<< 16 := by decide
        rw [hMv, Nat.testBit_shiftLeft, Nat.testBit_two_pow_sub_one]
        have : 16 ≤ j := Nat.le_of_not_lt h16
        simp only [ge_iff_le, this, decide_True, Bool.true_and, decide_eq_true_eq]
        omega
      simp [hM]
    · have he : (encode_position c).testBit j = false :=
        Nat.testBit_eq_false_of_lt
          (lt_of_lt_of_le (encode_position_lt c)
            (Nat.pow_le_pow_right (by omega) (Nat.le_of_not_lt h64)))
      simp [he]

end ZV
namespace ZV

/-- Range membership unpacks to map membership plus the key bounds. -/
theorem mem_mapRange {T : Type} {data : Store T} {lo hi : Nat} {kv : Nat × T} :
    kv ∈ mapRange data lo hi ↔ kv ∈ data ∧ lo ≤ kv.1 ∧ kv.1 ≤ hi := by
  simp [mapRange, List.mem_filter]

/-- The compression tag is the key modulo 16. -/
theorem decode_compression_eq_mod (k : Nat) : decode_compression k = k % 16 := by
  have h : (0b1111 : Nat) = 2 ^ 4 - 1 := by norm_num
  rw [decode_compression, h, Nat.and_pow_two_sub_one_eq_mod]

/-- Position keys have zero low 16 bits (numeral form). -/
theorem encode_position_mod' (c : V3) : encode_position c % 65536 = 0 := by
  have := encode_position_mod c
  norm_num at this
  exact this

/-- The lookup of `get` reduces to a range scan from the exact position key:
the stripped low bits are already zero and the upper bound is the key plus
65535. -/
theorem get_eq {T : Type} (data : Store T) (c : V3) :
    get data c =
      match mapRange data (encode_position c) (encode_position c + 65535) with
      | [] => none
      | (key, val) :: _ => some ⟨c, decode_compression key, val⟩ := by
  simp only [get]
  rw [spatial_key_eq, lor_ffff _ (encode_position_mod' c)]

/-- Whatever `get` returns comes from a stored entry whose top 48 bits
equal the query's full-resolution Morton code. -/
theorem get_morton_exact {T : Type} (data : Store T) (c : V3) (vd : VoxelData T)
    (h : get data c = some vd) :
    ∃ k v, (k, v) ∈ data ∧ vd = ⟨c, decode_compression k, v⟩ ∧
      k >>> 16 = encode_position c >>> 16 := by
  rw [get_eq] at h
  cases hm : mapRange data (encode_position c) (encode_position c + 65535) with
  | nil => rw [hm] at h; exact absurd h (by simp)
  | cons kv rest =>
    rw [hm] at h
    have hkv : kv ∈ mapRange data (encode_position c) (encode_position c + 65535) :=
      hm ▸ List.mem_cons_self kv rest
    rw [mem_mapRange] at hkv
    obtain ⟨hmem, h1, h2⟩ := hkv
    refine ⟨kv.1, kv.2, hmem, ?_, ?_⟩
    · cases h.symm
      rfl
    · have hdiv : kv.1 / 65536 = encode_position c / 65536 := by
        have hq : encode_position c / 65536 * 65536 = encode_position c :=
          Nat.div_mul_cancel (Nat.dvd_of_mod_eq_zero (encode_position_mod' c))
        refine Nat.div_eq_of_lt_le (by omega) (by omega)
      rw [Nat.shiftRight_eq_div_pow, Nat.shiftRight_eq_div_pow]
      norm_num
      exact hdiv

/-- Queried at a region corner (all finer Morton triplets zero), `get`
finds the compacted entry stored for that region. -/
theorem get_corner_compacted {T : Type} (v : T) (c : V3) (L : Nat)
    (hL1 : 1 ≤ L) (hL : L ≤ 15)
    (hc : encode_position c % 2 ^ (16 + 3 * L) = 0) :
    get [(encode_position c + L, v)] c = some ⟨c, L, v⟩ := by
  rw [get_eq]
  have hcond : mapRange [(encode_position c + L, v)] (encode_position c)
      (encode_position c + 65535) = [(encode_position c + L, v)] := by
    simp only [mapRange, List.filter_cons, List.filter_nil, decide_eq_true_eq]
    rw [if_pos ⟨by omega, by omega⟩]
  rw [hcond]
  have hmod : encode_position c % 16 = 0 := by
    have h16 : (16 : Nat) ∣ 65536 := by norm_num
    have := Nat.mod_mod_of_dvd (encode_position c) h16
    rw [encode_position_mod' c] at this
    omega
  have hdc : decode_compression (encode_position c + L) = L := by
    rw [decode_compression_eq_mod]
    omega
  dsimp only
  rw [hdc]

/-- Queried anywhere else inside a compacted region (some finer Morton
triplet nonzero), `get` misses the compacted ancestor entirely. -/
theorem get_interior_absent {T : Type} (v : T) (c : V3) (L : Nat)
    (hL1 : 1 ≤ L) (hL : L ≤ 15)
    (hc : encode_position c % 2 ^ (16 + 3 * L) ≠ 0) :
    get [(encode_position c / 2 ^ (16 + 3 * L) * 2 ^ (16 + 3 * L) + L, v)] c = none := by
  rw [get_eq]
  set qP := encode_position c / 2 ^ (16 + 3 * L) * 2 ^ (16 + 3 * L) with hqP
  have hklt : qP + L < encode_position c := by
    have hBdvd : (65536 : Nat) ∣ 2 ^ (16 + 3 * L) := by
      have : (65536 : Nat) = 2 ^ 16 := by norm_num
      rw [this]
      exact pow_dvd_pow 2 (by omega)
    have hmod16 : encode_position c % 2 ^ (16 + 3 * L) % 65536 = 0 := by
      rw [Nat.mod_mod_of_dvd _ hBdvd]
      exact encode_position_mod' c
    have hge : 65536 ≤ encode_position c % 2 ^ (16 + 3 * L) := by
      rcases Nat.eq_zero_or_pos (encode_position c % 2 ^ (16 + 3 * L)) with h0 | hpos
      · exact absurd h0 hc
      · omega
    have hsplit : qP + encode_position c % 2 ^ (16 + 3 * L) = encode_position c := by
      rw [hqP]
      exact Nat.div_add_mod' (encode_position c) (2 ^ (16 + 3 * L))
    omega
  have hcond : mapRange [(qP + L, v)]
      (encode_position c) (encode_position c + 65535) = [] := by
    simp only [mapRange, List.filter_cons, List.filter_nil, decide_eq_true_eq]
    rw [if_neg (by omega)]
  rw [hcond]

/-- Entries of a shallower prefix query all appear in any deeper one: the
aligned key range at depth `d` is contained in the range at depth `d'`. -/
theorem pfx_member_mono {T : Type} (data : Store T) (c : V3) (d d' : Nat)
    (hdd : d ≤ d') (v : VoxelData T)
    (hv : v ∈ get_neighbours_pfx data c d) : v ∈ get_neighbours_pfx data c d' := by
  unfold get_neighbours_pfx at hv ⊢
  simp only [List.mem_map] at hv ⊢
  obtain ⟨kv, hkv, rfl⟩ := hv
  refine ⟨kv, ?_, rfl⟩
  rw [mem_mapRange] at hkv ⊢
  obtain ⟨hmem, h1, h2⟩ := hkv
  refine ⟨hmem, ?_⟩
  simp only [Nat.shiftRight_eq_div_pow, Nat.shiftLeft_eq] at h1 h2 ⊢
  set code := encode_position c with hcode
  set B := 16 + d * 3 with hB
  set B' := 16 + d' * 3 with hB'
  have hpow : (0 : Nat) < 2 ^ B := Nat.pos_pow_of_pos B (by omega)
  have hpow' : (0 : Nat) < 2 ^ B' := Nat.pos_pow_of_pos B' (by omega)
  have hkd : kv.1 / 2 ^ B = code / 2 ^ B := by
    have hXpos : 0 < (code / 2 ^ B + 1) * 2 ^ B := Nat.mul_pos (Nat.succ_pos _) hpow
    exact Nat.div_eq_of_lt_le h1 (by omega)
  have hsplit : (2 : Nat) ^ B' = 2 ^ B * 2 ^ (B' - B) := by
    rw [← Nat.pow_add]
    congr 1
    omega
  have hkd' : kv.1 / 2 ^ B' = code / 2 ^ B' := by
    rw [hsplit, ← Nat.div_div_eq_div_mul, ← Nat.div_div_eq_div_mul, hkd]
  constructor
  · calc code / 2 ^ B' * 2 ^ B' = kv.1 / 2 ^ B' * 2 ^ B' := by rw [hkd']
      _ ≤ kv.1 := Nat.div_mul_le_self _ _
  · rw [← hkd', Nat.add_mul, Nat.one_mul]
    have hdm := Nat.div_add_mod' kv.1 (2 ^ B')
    have hm : kv.1 % 2 ^ B' < 2 ^ B' := Nat.mod_lt _ hpow'
    omega

end ZV
namespace ZV

/-- The map is only changed by a `compress_level` step when the region's
fetched entry count reaches `2 ^ (3 * depth)` and all payloads agree. -/
theorem compress_step_guard {T : Type} [DecidableEq T] (m : Store T) (seen : List Nat)
    (depth code : Nat) (h : (compress_step depth (m, seen) code).1 ≠ m) :
    2 ^ (3 * depth) ≤ (get_neighbours_pfx m (decode_position code) depth).length ∧
    ∀ v ∈ get_neighbours_pfx m (decode_position code) depth,
      ∀ w ∈ get_neighbours_pfx m (decode_position code) depth,
        v.payload = w.payload := by
  by_cases h1 : prefix_at_depth code depth ∈ seen
  · exact absurd (by simp [compress_step, h1]) h
  · by_cases h2 : (get_neighbours_pfx m (decode_position code) depth).length
        < 2 ^ (3 * depth)
    · exact absurd (by simp [compress_step, h1, h2]) h
    · refine ⟨Nat.le_of_not_lt h2, ?_⟩
      cases hnb : get_neighbours_pfx m (decode_position code) depth with
      | nil =>
        intro v hv
        rw [List.mem_nil_iff] at hv
        exact absurd hv (by simp)
      | cons first rest =>
        by_cases h3 : (first :: rest).all fun v => v.payload = first.payload
        · intro v hv w hw
          have hva := List.all_eq_true.mp h3 v hv
          have hwa := List.all_eq_true.mp h3 w hw
          simp only [decide_eq_true_eq] at hva hwa
          rw [hva, hwa]
        · exfalso
          apply h
          simp only [compress_step, h1, if_false, ite_false, if_neg h1, hnb]
          rw [if_neg (by rw [hnb] at h2; exact h2)]
          simp [h3]

/-- Confirms the radius-0 part of the radius-box claim and records what the
radius-1 query actually returns: only the exact center entry, because
`1.next_power_of_two().ilog2()` is depth 0. -/
theorem C2_radius_box_amended :
    get_neighbours_area store5 ⟨1, 1, 1⟩ 1 = [⟨⟨1, 1, 1⟩, 0, 1⟩] ∧
    get_neighbours_area store5 ⟨1, 1, 1⟩ 0 = [⟨⟨1, 1, 1⟩, 0, 1⟩] := by decide

/-- Refutes the radius-box claim as stated: (0,0,0) is at Chebyshev
distance 1 from (1,1,1) but is not among the radius-1 results. -/
theorem C2_radius_box_counterexample :
    (⟨0, 0, 0⟩ : V3) ∉ (get_neighbours_area store5 ⟨1, 1, 1⟩ 1).map
      (fun v => v.position) := by decide

/-- Evaluates the serializer on the failing input: the store holding only
(251,0,0) round-trips to a store holding (502,0,0), so the claimed
round-trip `get` comes back absent. -/
theorem C1_serialization_roundtrip_bug :
    store251 = [(encode_position ⟨251, 0, 0⟩, true)] ∧
    deserialize_from_bytes (serialize_to_bytes store251 bincode_bool_enc) bincode_bool_dec
      = [(encode_position ⟨502, 0, 0⟩, true)] ∧
    get (deserialize_from_bytes (serialize_to_bytes store251 bincode_bool_enc)
      bincode_bool_dec) ⟨251, 0, 0⟩ = none ∧
    get store251 ⟨251, 0, 0⟩ = some ⟨⟨251, 0, 0⟩, 0, true⟩ := by decide

/-- Evaluates the remove drain on the failing input: draining
`Remove((1,0,0))` against a store holding only the full-resolution entry at
(0,0,0) deletes that unrelated entry. -/
theorem C4_remove_drain_bug :
    store1pt = [(encode_position ⟨0, 0, 0⟩, 42)] ∧
    apply_mutations store1pt [.remove ⟨1, 0, 0⟩] = [] ∧
    get (apply_mutations store1pt [.remove ⟨1, 0, 0⟩]) ⟨0, 0, 0⟩ = none ∧
    get store1pt ⟨0, 0, 0⟩ = some ⟨⟨0, 0, 0⟩, 0, 42⟩ := by decide

/-- Refutes the get-never-returns-compacted claim: after compacting the
eight unit-cube corners into the level-1 entry with key 1, `get` at the
region corner (0,0,0) returns that compacted entry. -/
theorem C3_get_compacted_counterexample :
    compress store8 2 = [(1, true)] ∧
    get (compress store8 2) ⟨0, 0, 0⟩ = some ⟨⟨0, 0, 0⟩, 1, true⟩ := by decide

/-- Amended get contract: `get` only ever returns a stored entry whose top
48 key bits equal the query's full-resolution Morton code; consequently a
compacted ancestor is invisible to `get` from every absorbed coordinate
with a nonzero fine Morton triplet, but at the region's corner coordinate
(all fine triplets zero) `get` does return the compacted entry. -/
theorem C3_get_amended :
    (∀ {T : Type} (data : Store T) (c : V3) (vd : VoxelData T),
      get data c = some vd →
      ∃ k v, (k, v) ∈ data ∧ vd = ⟨c, decode_compression k, v⟩ ∧
        k >>> 16 = encode_position c >>> 16) ∧
    (∀ {T : Type} (v : T) (c : V3) (L : Nat), 1 ≤ L → L ≤ 15 →
      encode_position c % 2 ^ (16 + 3 * L) = 0 →
      get [(encode_position c + L, v)] c = some ⟨c, L, v⟩) ∧
    (∀ {T : Type} (v : T) (c : V3) (L : Nat), 1 ≤ L → L ≤ 15 →
      encode_position c % 2 ^ (16 + 3 * L) ≠ 0 →
      get [(encode_position c / 2 ^ (16 + 3 * L) * 2 ^ (16 + 3 * L) + L, v)] c = none) := by
  refine ⟨?_, ?_, ?_⟩
  · intro T data c vd h
    exact get_morton_exact data c vd h
  · intro T v c L hL1 hL hc
    exact get_corner_compacted v c L hL1 hL hc
  · intro T v c L hL1 hL hc
    exact get_interior_absent v c L hL1 hL hc

/-- Concrete instance of the amended get contract at the corner of a
compacted region. -/
theorem C3_get_amended_witness :
    get [(encode_position ⟨0, 0, 0⟩ + 1, true)] ⟨0, 0, 0⟩ =
      some ⟨⟨0, 0, 0⟩, 1, true⟩ :=
  C3_get_amended.2.1 true ⟨0, 0, 0⟩ 1 (by norm_num) (by norm_num) (by decide)

/-- Refutes the only-when-exactly-full part of the compaction claim: the
level-1 collapse also fires on a region whose fetched entry count is 9
(eight full-resolution corners plus the previously compacted entry), not
`2 ^ 3`. -/
theorem C5_compaction_counterexample :
    (get_neighbours_pfx store9 ⟨0, 0, 0⟩ 1).length = 9 ∧
    (get_neighbours_pfx store9 ⟨0, 0, 0⟩ 1).length ≠ 2 ^ (3 * 1) ∧
    compress_level store9 1 = [(1, true)] ∧
    store9 ≠ [(1, true)] := by decide

/-- Amended compaction claim: the eight-corner scenario compacts to a
single entry that every corner's prefix query still resolves to payload
`true`, and a `compress_level` step only changes the map when the region's
fetched entry count is at least `2 ^ (3 * depth)` with all payloads
equal. -/
theorem C5_compaction_amended :
    (∀ {T : Type} [DecidableEq T] (m : Store T) (seen : List Nat) (depth code : Nat),
      (compress_step depth (m, seen) code).1 ≠ m →
      2 ^ (3 * depth) ≤ (get_neighbours_pfx m (decode_position code) depth).length ∧
      ∀ v ∈ get_neighbours_pfx m (decode_position code) depth,
        ∀ w ∈ get_neighbours_pfx m (decode_position code) depth,
          v.payload = w.payload) ∧
    compress store8 2 = [(1, true)] ∧
    store8.length = 8 ∧ (compress store8 2).length = 1 ∧
    (∀ c ∈ corners8, (get_neighbours_pfx (compress store8 2) c 1).map
      (fun v => v.payload) = [true]) := by
  refine ⟨?_, by decide, by decide, by decide, by decide⟩
  intro T _ m seen depth code h
  exact compress_step_guard m seen depth code h

/-- Concrete instances of the amended compaction claim: the guard holds at
the nine-entry region, and the corner (0,0,0) still reads `true` through a
prefix query after compaction. -/
theorem C5_compaction_amended_witness :
    2 ^ (3 * 1) ≤ (get_neighbours_pfx store9 (decode_position 0) 1).length ∧
    (get_neighbours_pfx (compress store8 2) ⟨0, 0, 0⟩ 1).map
      (fun v => v.payload) = [true] :=
  ⟨(C5_compaction_amended.1 store9 [] 1 0 (by decide)).1,
    C5_compaction_amended.2.2.2.2 ⟨0, 0, 0⟩ (by decide)⟩

/-- Confirms the Morton codec inverse law: decoding inverts encoding on
every in-range coordinate, the encoder places bit `b` of axis `i` at key
bit `16 + (3*b + i)`, and the low 16 key bits stay zero. -/
theorem C6_codec_inverse (x y z : Nat)
    (hx : x < 65536) (hy : y < 65536) (hz : z < 65536) :
    decode_position (encode_position ⟨x, y, z⟩) = ⟨x, y, z⟩ ∧
    (∀ b i, b < 16 → i < 3 →
      (encode_position ⟨x, y, z⟩).testBit (16 + (3 * b + i)) =
        (axis ⟨x, y, z⟩ i).testBit b) ∧
    encode_position ⟨x, y, z⟩ % 2 ^ 16 = 0 := by
  refine ⟨decode_encode ⟨x, y, z⟩ hx hy hz, fun b i hb hi => ?_, encode_position_mod _⟩
  have harith : 16 + (3 * b + i) = b * 3 + i + 16 := by ring
  rw [harith]
  exact encode_position_bit ⟨x, y, z⟩ b i hb hi

/-- Concrete instance of the codec inverse law. -/
theorem C6_codec_inverse_witness :
    decode_position (encode_position ⟨3, 5, 65535⟩) = ⟨3, 5, 65535⟩ :=
  (C6_codec_inverse 3 5 65535 (by norm_num) (by norm_num) (by norm_num)).1

/-- Confirms prefix-query monotonicity: every entry of a shallower prefix
query reappears at any deeper valid depth, and on the two-point scenario
depth 1 returns exactly one entry while depth 2 returns both. -/
theorem C7_prefix_monotone :
    (∀ {T : Type} (data : Store T) (c : V3) (d d' : Nat), d ≤ d' → d' ≤ 15 →
      ∀ v ∈ get_neighbours_pfx data c d, v ∈ get_neighbours_pfx data c d') ∧
    (get_neighbours_pfx store2 ⟨0, 0, 0⟩ 1).length = 1 ∧
    (get_neighbours_pfx store2 ⟨0, 0, 0⟩ 2).length = 2 := by
  refine ⟨?_, by decide, by decide⟩
  intro T data c d d' hdd _ v hv
  exact pfx_member_mono data c d d' hdd v hv

/-- Concrete instance of prefix-query monotonicity on the two-point
scenario. -/
theorem C7_prefix_monotone_witness :
    (⟨⟨0, 0, 0⟩, 0, true⟩ : VoxelData Bool) ∈ get_neighbours_pfx store2 ⟨0, 0, 0⟩ 2 :=
  C7_prefix_monotone.1 store2 ⟨0, 0, 0⟩ 1 2 (by norm_num) (by norm_num)
    ⟨⟨0, 0, 0⟩, 0, true⟩ (by decide)

/-- Confirms insert/get agreement and the remove law through the mutation
queue: a drained insert at (1,2,3) is visible to `get` there and only
there, and insert-then-remove drains to an absent coordinate. -/
theorem C8_drain_visibility {T : Type} (v : T) (c : V3) :
    get (apply_mutations [] [.insert ⟨1, 2, 3⟩ v]) ⟨1, 2, 3⟩ =
      some ⟨⟨1, 2, 3⟩, 0, v⟩ ∧
    get (apply_mutations [] [.insert ⟨1, 2, 3⟩ v]) ⟨0, 0, 0⟩ = none ∧
    get (apply_mutations [] [.insert c v, .remove c]) c = none := by
  have hstate : apply_mutations ([] : Store T) [.insert ⟨1, 2, 3⟩ v]
      = [(encode_position ⟨1, 2, 3⟩, v)] := rfl
  refine ⟨?_, ?_, ?_⟩
  · rw [hstate, get_eq]
    have hrange : mapRange [(encode_position ⟨1, 2, 3⟩, v)]
        (encode_position ⟨1, 2, 3⟩) (encode_position ⟨1, 2, 3⟩ + 65535)
        = [(encode_position ⟨1, 2, 3⟩, v)] := by
      simp only [mapRange, List.filter_cons, List.filter_nil, decide_eq_true_eq]
      rw [if_pos ⟨le_refl _, by omega⟩]
    rw [hrange]
    dsimp only
    have hdc : decode_compression (encode_position ⟨1, 2, 3⟩) = 0 := by decide
    rw [hdc]
  · rw [hstate, get_eq]
    have hrange : mapRange [(encode_position ⟨1, 2, 3⟩, v)]
        (encode_position ⟨0, 0, 0⟩) (encode_position ⟨0, 0, 0⟩ + 65535) = [] := by
      simp only [mapRange, List.filter_cons, List.filter_nil, decide_eq_true_eq]
      rw [if_neg (by decide)]
    rw [hrange]
  · have hstate2 : apply_mutations ([] : Store T) [.insert c v, .remove c] = [] := by
      show applyOp (applyOp [] (.insert c v)) (.remove c) = []
      have h1 : applyOp ([] : Store T) (.insert c v) = [(encode_position c, v)] := rfl
      rw [h1]
      simp [applyOp, mapRemove]
    rw [hstate2, get_eq]
    rfl

end ZV
namespace SVO

theorem length_setV (vs : List Voxel) (i : Nat) (v : Voxel) :
    (setV vs i v).length = vs.length := List.length_set vs i v

theorem getV_setV_self (vs : List Voxel) (i : Nat) (v : Voxel) (h : i < vs.length) :
    getV (setV vs i v) i = v := by
  simp [getV, setV, List.getD_eq_getElem?_getD, List.getElem?_set_self h]

theorem getV_setV_ne (vs : List Voxel) (i : Nat) (v : Voxel) (j : Nat) (h : i ≠ j) :
    getV (setV vs i v) j = getV vs j := by
  simp [getV, setV, List.getD_eq_getElem?_getD, List.getElem?_set_ne h]

theorem getV_out (vs : List Voxel) (i : Nat) (h : vs.length ≤ i) :
    getV vs i = Voxel.emptyNode := by
  simp [getV, List.getD_eq_getElem?_getD, List.getElem?_eq_none h]

theorem length_setChild (vs : List Voxel) (i : Nat) (d : Fin 8) (j : Option Nat) :
    (setChild vs i d j).length = vs.length := length_setV _ _ _

theorem length_setMat (vs : List Voxel) (i : Nat) (m : Nat) :
    (setMat vs i m).length = vs.length := length_setV _ _ _

/-- Children of the written node: slot `d` holds the new link, other slots
are unchanged. -/
theorem setChild_children_self (vs : List Voxel) (i : Nat) (d : Fin 8) (j : Option Nat)
    (h : i < vs.length) (d' : Fin 8) :
    (getV (setChild vs i d j) i).children d' = if d' = d then j else (getV vs i).children d' := by
  rw [setChild, getV_setV_self _ _ _ h]
  simp [Function.update_apply]

theorem setChild_getV_ne (vs : List Voxel) (i : Nat) (d : Fin 8) (j : Option Nat)
    (k : Nat) (h : k ≠ i) : getV (setChild vs i d j) k = getV vs k :=
  getV_setV_ne _ _ _ _ (fun he => h he.symm)

/-- Writing a child link never changes any material. -/
theorem setChild_material (vs : List Voxel) (i : Nat) (d : Fin 8) (j : Option Nat)
    (k : Nat) : (getV (setChild vs i d j) k).material = (getV vs k).material := by
  by_cases hk : k = i
  · subst hk
    by_cases h : k < vs.length
    · rw [setChild, getV_setV_self _ _ _ h]
    · rw [setChild, setV, List.set_eq_of_length_le (Nat.le_of_not_lt h)]
  · rw [setChild_getV_ne _ _ _ _ _ hk]

/-- Writing a material never changes any child link. -/
theorem setMat_children (vs : List Voxel) (i : Nat) (m : Nat) (k : Nat) :
    (getV (setMat vs i m) k).children = (getV vs k).children := by
  by_cases hk : k = i
  · subst hk
    by_cases h : k < vs.length
    · rw [setMat, getV_setV_self _ _ _ h]
    · rw [setMat, setV, List.set_eq_of_length_le (Nat.le_of_not_lt h)]
  · rw [setMat, getV_setV_ne _ _ _ _ (fun he => hk he.symm)]

theorem setMat_material_self (vs : List Voxel) (i : Nat) (m : Nat) (h : i < vs.length) :
    (getV (setMat vs i m) i).material = m := by
  rw [setMat, getV_setV_self _ _ _ h]

theorem setMat_material_ne (vs : List Voxel) (i : Nat) (m : Nat) (k : Nat) (h : k ≠ i) :
    (getV (setMat vs i m) k).material = (getV vs k).material := by
  rw [setMat, getV_setV_ne _ _ _ _ (fun he => h he.symm)]

theorem getV_append_lt (vs ws : List Voxel) (i : Nat) (h : i < vs.length) :
    getV (vs ++ ws) i = getV vs i := by
  simp [getV, List.getD_eq_getElem?_getD, List.getElem?_append, h]

theorem getV_append_len (vs : List Voxel) (v : Voxel) :
    getV (vs ++ [v]) vs.length = v := by
  simp [getV, List.getD_eq_getElem?_getD, List.getElem?_concat_length]

theorem getV_append_gt (vs : List Voxel) (v : Voxel) (i : Nat) (h : vs.length + 1 ≤ i) :
    getV (vs ++ [v]) i = Voxel.emptyNode :=
  getV_out _ _ (by simp; omega)

/-- A node is empty exactly when every child slot is vacant. -/
theorem isEmptyNode_iff (v : Voxel) :
    v.isEmptyNode = true ↔ ∀ d, v.children d = none := by
  simp only [Voxel.isEmptyNode, List.all_eq_true, Option.isNone_iff_eq_none]
  constructor
  · intro h d
    exact h d (List.mem_finRange d)
  · intro h d _
    exact h d

theorem nodeAt_functional (vs : List Voxel) :
    ∀ (p : List (Fin 8)) (i j j' : Nat), nodeAt vs i p j → nodeAt vs i p j' → j = j' := by
  intro p
  induction p with
  | nil =>
    intro i j j' h h'
    simp only [nodeAt] at h h'
    rw [h, h']
  | cons d rest ih =>
    intro i j j' h h'
    obtain ⟨t, ht, hrest⟩ := h
    obtain ⟨t', ht', hrest'⟩ := h'
    rw [ht] at ht'
    injection ht' with he
    subst he
    exact ih t j j' hrest hrest'

theorem nodeAt_append (vs : List Voxel) :
    ∀ (p q : List (Fin 8)) (i j : Nat),
      nodeAt vs i (p ++ q) j ↔ ∃ t, nodeAt vs i p t ∧ nodeAt vs t q j := by
  intro p
  induction p with
  | nil =>
    intro q i j
    constructor
    · intro h
      exact ⟨i, rfl, h⟩
    · rintro ⟨t, ht, hq⟩
      rw [nodeAt] at ht
      subst ht
      exact hq
  | cons d rest ih =>
    intro q i j
    constructor
    · rintro ⟨t, ht, hrest⟩
      rcases (ih q t j).mp hrest with ⟨s, hs1, hs2⟩
      exact ⟨s, ⟨t, ht, hs1⟩, hs2⟩
    · rintro ⟨s, ⟨t, ht, hs1⟩, hs2⟩
      exact ⟨t, ht, (ih q t j).mpr ⟨s, hs1, hs2⟩⟩

theorem nodeAt_snoc (vs : List Voxel) (p : List (Fin 8)) (d : Fin 8) (i j : Nat) :
    nodeAt vs i (p ++ [d]) j ↔
      ∃ t, nodeAt vs i p t ∧ (getV vs t).children d = some j := by
  rw [nodeAt_append]
  constructor
  · rintro ⟨t, ht, s, hs, hnode⟩
    rw [nodeAt] at hnode
    subst hnode
    exact ⟨t, ht, hs⟩
  · rintro ⟨t, ht, hlink⟩
    exact ⟨t, ht, j, hlink, rfl⟩

theorem nodeAt_mono (vs vs' : List Voxel) (h : linkLe vs vs') :
    ∀ (p : List (Fin 8)) (i j : Nat), nodeAt vs i p j → nodeAt vs' i p j := by
  intro p
  induction p with
  | nil => intro i j hp; exact hp
  | cons d rest ih =>
    rintro i j ⟨t, ht, hrest⟩
    exact ⟨t, h i d t ht, ih t j hrest⟩

theorem linkLe_refl (vs : List Voxel) : linkLe vs vs := fun _ _ _ h => h

theorem linkLe_trans {a b c : List Voxel} (h1 : linkLe a b) (h2 : linkLe b c) :
    linkLe a c := fun i d j h => h2 i d j (h1 i d j h)

/-- Indices strictly increase along nonempty paths. -/
theorem nodeAt_lt (vs : List Voxel) (hb : boundsInv vs) :
    ∀ (p : List (Fin 8)) (i j : Nat), nodeAt vs i p j → i ≤ j ∧ (p ≠ [] → i < j) := by
  intro p
  induction p with
  | nil =>
    intro i j h
    rw [nodeAt] at h
    subst h
    exact ⟨le_refl _, fun hne => absurd rfl hne⟩
  | cons d rest ih =>
    rintro i j ⟨t, ht, hrest⟩
    have hit := (hb i d t ht).1
    have := (ih t j hrest).1
    refine ⟨by omega, fun _ => by omega⟩

/-- No node sits strictly inside its own descent path. -/
theorem nodeAt_no_cycle (vs : List Voxel) (hb : boundsInv vs) (p : List (Fin 8))
    (i : Nat) (hp : p ≠ []) (h : nodeAt vs i p i) : False := by
  have := (nodeAt_lt vs hb p i i h).2 hp
  omega

/-- Under single parenthood the path from the root to a node is unique. -/
theorem uniquePath (vs : List Voxel) (hb : boundsInv vs) (hs : singleParentInv vs) :
    ∀ (p q : List (Fin 8)) (j : Nat), nodeAt vs 0 p j → nodeAt vs 0 q j → p = q := by
  intro p
  induction p using List.reverseRecOn with
  | nil =>
    intro q j hp hq
    rw [nodeAt] at hp
    subst hp
    cases q using List.reverseRecOn with
    | nil => rfl
    | append_singleton q' d =>
      rcases (nodeAt_snoc vs q' d 0 0).mp hq with ⟨t, _, hlink⟩
      have := (hb t d 0 hlink).1
      omega
  | append_singleton p' d ih =>
    intro q j hp hq
    rcases (nodeAt_snoc vs p' d 0 j).mp hp with ⟨t, ht, hlink⟩
    cases q using List.reverseRecOn with
    | nil =>
      rw [nodeAt] at hq
      subst hq
      have := (hb t d 0 hlink).1
      omega
    | append_singleton q' d' =>
      rcases (nodeAt_snoc vs q' d' 0 j).mp hq with ⟨t', ht', hlink'⟩
      obtain ⟨he, hd⟩ := hs t d t' d' j hlink hlink'
      subst he
      subst hd
      rw [ih q' t ht ht']

end SVO
namespace SVO

/-- Paths only depend on the child links. -/
theorem nodeAt_children_congr (vs vs' : List Voxel)
    (h : ∀ k, (getV vs' k).children = (getV vs k).children) :
    ∀ (r : List (Fin 8)) (k j : Nat), nodeAt vs' k r j ↔ nodeAt vs k r j := by
  intro r
  induction r with
  | nil => intro k j; exact Iff.rfl
  | cons d rest ih =>
    intro k j
    constructor
    · rintro ⟨t, ht, hrest⟩
      rw [h k] at ht
      exact ⟨t, ht, (ih t j).mp hrest⟩
    · rintro ⟨t, ht, hrest⟩
      rw [← h k] at ht
      exact ⟨t, ht, (ih t j).mpr hrest⟩

/-- Nodes reached from the root stay inside the arena. -/
theorem nodeAt_target_lt (vs : List Voxel) (hb : boundsInv vs) (hlen : 0 < vs.length)
    (q : List (Fin 8)) (i : Nat) (h : nodeAt vs 0 q i) : i < vs.length := by
  cases q using List.reverseRecOn with
  | nil => rw [nodeAt] at h; omega
  | append_singleton q' d =>
    rcases (nodeAt_snoc vs q' d 0 i).mp h with ⟨t, _, hlink⟩
    exact (hb t d i hlink).2

/-- Paths in the arena extended by one fresh linked node: either the path
already existed, or it is the old path to the linking node followed by the
new digit, ending at the fresh node. -/
theorem nodeAt_fresh_step (vs : List Voxel) (i : Nat) (d : Fin 8)
    (hb : boundsInv vs) (hi : i < vs.length) :
    ∀ (r : List (Fin 8)) (k j : Nat), k < vs.length →
      nodeAt (setChild vs i d (some vs.length) ++ [Voxel.emptyNode]) k r j →
      nodeAt vs k r j ∨ ∃ r₀, r = r₀ ++ [d] ∧ nodeAt vs k r₀ i ∧ j = vs.length := by
  intro r
  induction r with
  | nil =>
    intro k j _ h
    exact Or.inl h
  | cons e r' ih =>
    intro k j hk h
    obtain ⟨t, ht, hrest⟩ := h
    have hkv : getV (setChild vs i d (some vs.length) ++ [Voxel.emptyNode]) k
        = getV (setChild vs i d (some vs.length)) k := by
      rw [getV_append_lt]
      rw [length_setChild]
      exact hk
    rw [hkv] at ht
    by_cases hki : k = i
    · subst hki
      rw [setChild_children_self _ _ _ _ hi] at ht
      by_cases hed : e = d
      · rw [if_pos hed] at ht
        injection ht with htn
        subst htn
        have hfresh : getV (setChild vs k d (some vs.length) ++ [Voxel.emptyNode])
            vs.length = Voxel.emptyNode := by
          have h0 := getV_append_len (setChild vs k d (some vs.length)) Voxel.emptyNode
          rw [length_setChild] at h0
          exact h0
        cases r' with
        | nil =>
          rw [nodeAt] at hrest
          subst hrest
          subst hed
          exact Or.inr ⟨[], rfl, rfl, rfl⟩
        | cons e' r'' =>
          obtain ⟨s, hs, _⟩ := hrest
          rw [hfresh] at hs
          exact absurd hs (by simp [Voxel.emptyNode])
      · rw [if_neg hed] at ht
        have htlt := (hb k e t ht).2
        rcases ih t j htlt hrest with hl | ⟨r₀, hr₀, hnode, hj⟩
        · exact Or.inl ⟨t, ht, hl⟩
        · exact Or.inr ⟨e :: r₀, by rw [hr₀]; rfl, ⟨t, ht, hnode⟩, hj⟩
    · rw [setChild_getV_ne _ _ _ _ _ hki] at ht
      have htlt := (hb k e t ht).2
      rcases ih t j htlt hrest with hl | ⟨r₀, hr₀, hnode, hj⟩
      · exact Or.inl ⟨t, ht, hl⟩
      · exact Or.inr ⟨e :: r₀, by rw [hr₀]; rfl, ⟨t, ht, hnode⟩, hj⟩

/-- Link characterisation of the arena extended by one fresh linked node. -/
theorem fresh_links (vs : List Voxel) (i : Nat) (d : Fin 8) (hi : i < vs.length)
    (hb : boundsInv vs) (hnone : (getV vs i).children d = none)
    (k : Nat) (e : Fin 8) (jj : Nat) :
    (getV (setChild vs i d (some vs.length) ++ [Voxel.emptyNode]) k).children e = some jj ↔
      ((getV vs k).children e = some jj ∨ (k = i ∧ e = d ∧ jj = vs.length)) := by
  by_cases hk : k < vs.length
  · have hkv : getV (setChild vs i d (some vs.length) ++ [Voxel.emptyNode]) k
        = getV (setChild vs i d (some vs.length)) k := by
      rw [getV_append_lt]
      rw [length_setChild]
      exact hk
    rw [hkv]
    by_cases hki : k = i
    · subst hki
      rw [setChild_children_self _ _ _ _ hi]
      by_cases hed : e = d
      · rw [if_pos hed]
        constructor
        · intro hsome
          injection hsome with hj
          exact Or.inr ⟨rfl, hed, hj.symm⟩
        · rintro (hold | ⟨_, _, rfl⟩)
          · subst hed
            rw [hnone] at hold
            exact absurd hold (by simp)
          · rfl
      · rw [if_neg hed]
        constructor
        · exact Or.inl
        · rintro (hold | ⟨_, hed', _⟩)
          · exact hold
          · exact absurd hed' hed
    · rw [setChild_getV_ne _ _ _ _ _ hki]
      constructor
      · exact Or.inl
      · rintro (hold | ⟨hki', _, _⟩)
        · exact hold
        · exact absurd hki' hki
  · have hk' : vs.length ≤ k := Nat.le_of_not_lt hk
    have hempty : getV (setChild vs i d (some vs.length) ++ [Voxel.emptyNode]) k
        = Voxel.emptyNode := by
      rcases Nat.eq_or_lt_of_le hk' with heq | hlt
      · have h0 := getV_append_len (setChild vs i d (some vs.length)) Voxel.emptyNode
        rw [length_setChild] at h0
        rw [← heq]
        exact h0
      · exact getV_append_gt _ _ _ (by rw [length_setChild]; omega)
    rw [hempty]
    have hout : getV vs k = Voxel.emptyNode := getV_out _ _ hk'
    rw [hout]
    simp only [Voxel.emptyNode]
    constructor
    · intro h
      exact absurd h (by simp)
    · rintro (hold | ⟨hki, _, _⟩)
      · exact absurd hold (by simp)
      · subst hki
        omega

end SVO
namespace SVO

/-- Full specification of the insert descent: it preserves the arena/tree
invariants, only adds links, creates exactly the digit path `p` below the
start node `i` (reached from the root by `q`, with `q ++ p` of full depth
`D`), adds no root path other than prefixes of `q ++ p`, and leaves the
terminal node carrying the inserted material. -/
theorem insertGo_spec (m : Nat) (D : Nat) :
    ∀ (p : List (Fin 8)) (vs : List Voxel) (i : Nat) (q : List (Fin 8)),
      boundsInv vs → singleParentInv vs → leafInv vs D → matInv vs D →
      0 < vs.length →
      nodeAt vs 0 q i → q.length + p.length = D →
      boundsInv (insertGo vs i m p) ∧
      singleParentInv (insertGo vs i m p) ∧
      leafInv (insertGo vs i m p) D ∧
      matInv (insertGo vs i m p) D ∧
      linkLe vs (insertGo vs i m p) ∧
      vs.length ≤ (insertGo vs i m p).length ∧
      hasPath (insertGo vs i m p) i p ∧
      (∀ r j, nodeAt (insertGo vs i m p) 0 r j → nodeAt vs 0 r j ∨ r <+: (q ++ p)) ∧
      (∃ e, nodeAt (insertGo vs i m p) i p e ∧
        (getV (insertGo vs i m p) e).material = m) := by
  intro p
  induction p with
  | nil =>
    intro vs i q hb hs hleaf hmat hlen hq hD
    have hilt : i < vs.length := nodeAt_target_lt vs hb hlen q i hq
    have hchild : ∀ k, (getV (setMat vs i m) k).children = (getV vs k).children :=
      fun k => setMat_children vs i m k
    have hcongr := nodeAt_children_congr vs (setMat vs i m) hchild
    have hqD : q.length = D := by simpa using hD
    simp only [insertGo]
    refine ⟨?_, ?_, ?_, ?_, ?_, ?_, ?_, ?_, ?_⟩
    · intro a d j h
      rw [hchild] at h
      have := hb a d j h
      rw [length_setMat]
      exact this
    · intro a d a' d' j h h'
      rw [hchild] at h h'
      exact hs a d a' d' j h h'
    · intro r j hr hnode d
      rw [hcongr] at hnode
      rw [hchild]
      exact hleaf r j hr hnode d
    · intro r j hr0 hrD hnode
      rw [hcongr] at hnode
      have hji : j ≠ i := by
        intro he
        subst he
        have hrq := uniquePath vs hb hs r q j hnode hq
        have : r.length = q.length := by rw [hrq]
        omega
      rw [setMat_material_ne vs i m j hji]
      exact hmat r j hr0 hrD hnode
    · intro a d j h
      rw [hchild]
      exact h
    · rw [length_setMat]
    · exact ⟨i, rfl⟩
    · intro r j h
      rw [hcongr] at h
      exact Or.inl h
    · exact ⟨i, rfl, setMat_material_self vs i m hilt⟩
  | cons d rest ih =>
    intro vs i q hb hs hleaf hmat hlen hq hD
    have hilt : i < vs.length := nodeAt_target_lt vs hb hlen q i hq
    cases hlink : (getV vs i).children d with
    | some t =>
      have hqd : nodeAt vs 0 (q ++ [d]) t :=
        (nodeAt_snoc vs q d 0 t).mpr ⟨i, hq, hlink⟩
      have hD' : (q ++ [d]).length + rest.length = D := by
        simp only [List.length_append, List.length_cons, List.length_nil] at hD ⊢
        omega
      have spec := ih vs t (q ++ [d]) hb hs hleaf hmat hlen hqd hD'
      obtain ⟨sb, ss, sl, sm, slink, slen, ⟨e0, he0⟩, schar, e, he, hmate⟩ := spec
      have hGo : insertGo vs i m (d :: rest) = insertGo vs t m rest := by
        simp only [insertGo, hlink]
      rw [hGo]
      refine ⟨sb, ss, sl, sm, slink, slen, ?_, ?_, ?_⟩
      · exact ⟨e0, t, slink i d t hlink, he0⟩
      · intro r j h
        rcases schar r j h with h' | hpre
        · exact Or.inl h'
        · right
          rw [List.append_assoc] at hpre
          exact hpre
      · exact ⟨e, ⟨t, slink i d t hlink, he⟩, hmate⟩
    | none =>
      have hGo : insertGo vs i m (d :: rest)
          = insertGo (setChild vs i d (some vs.length) ++ [Voxel.emptyNode])
              vs.length m rest := by
        simp only [insertGo, hlink]
      set vs1 := setChild vs i d (some vs.length) ++ [Voxel.emptyNode] with hvs1
      have hlen1 : vs1.length = vs.length + 1 := by
        rw [hvs1]
        simp [length_setChild]
      have hflinks := fresh_links vs i d hilt hb hlink
      have hfresh : ∀ (r : List (Fin 8)) (k j : Nat), k < vs.length →
          nodeAt vs1 k r j →
          nodeAt vs k r j ∨ ∃ r₀, r = r₀ ++ [d] ∧ nodeAt vs k r₀ i ∧ j = vs.length :=
        nodeAt_fresh_step vs i d hb hilt
      have hmats : ∀ k, k < vs.length → (getV vs1 k).material = (getV vs k).material := by
        intro k hk
        rw [hvs1, getV_append_lt _ _ _ (by rw [length_setChild]; exact hk)]
        exact setChild_material vs i d (some vs.length) k
      have hgetn : getV vs1 vs.length = Voxel.emptyNode := by
        rw [hvs1]
        have h0 := getV_append_len (setChild vs i d (some vs.length)) Voxel.emptyNode
        rw [length_setChild] at h0
        exact h0
      have hmatn : (getV vs1 vs.length).material = 0 := by
        rw [hgetn]
        rfl
      have hchildn : ∀ e, (getV vs1 vs.length).children e = none := by
        intro e
        rw [hgetn]
        rfl
      have hb1 : boundsInv vs1 := by
        intro a e j h
        rcases (hflinks a e j).mp h with hold | ⟨ha, _, hj⟩
        · have := hb a e j hold
          omega
        · subst ha
          subst hj
          omega
      have hs1 : singleParentInv vs1 := by
        intro a e a' e' j h h'
        rcases (hflinks a e j).mp h with hold | ⟨ha, he, hj⟩
        · rcases (hflinks a' e' j).mp h' with hold' | ⟨ha', he', hj'⟩
          · exact hs a e a' e' j hold hold'
          · have := (hb a e j hold).2
            omega
        · rcases (hflinks a' e' j).mp h' with hold' | ⟨ha', he', hj'⟩
          · have := (hb a' e' j hold').2
            omega
          · subst ha
            subst ha'
            subst he
            subst he'
            exact ⟨rfl, rfl⟩
      have hlinkle1 : linkLe vs vs1 := by
        intro a e j h
        exact (hflinks a e j).mpr (Or.inl h)
      have huniq := uniquePath vs hb hs
      have hchar1 : ∀ r j, nodeAt vs1 0 r j →
          nodeAt vs 0 r j ∨ (r = q ++ [d] ∧ j = vs.length) := by
        intro r j h
        rcases hfresh r 0 j hlen h with h' | ⟨r₀, hr, hnode, hj⟩
        · exact Or.inl h'
        · right
          rw [hr, huniq r₀ q i hnode hq]
          exact ⟨rfl, hj⟩
      have hleaf1 : leafInv vs1 D := by
        intro r j hr hnode e
        rcases hchar1 r j hnode with h' | ⟨hreq, hj⟩
        · have hji : j ≠ i := by
            intro heq
            subst heq
            have := huniq r q j h' hq
            subst this
            simp only [List.length_cons] at hD
            omega
          have hjn : j ≠ vs.length := by
            intro heq
            have := nodeAt_target_lt vs hb hlen r j h'
            omega
          have hold : (getV vs j).children e = none := hleaf r j hr h' e
          cases hcase : (getV vs1 j).children e with
          | none => rfl
          | some x =>
            rcases (hflinks j e x).mp hcase with holdx | ⟨hji', _, _⟩
            · rw [hold] at holdx
              exact absurd holdx (by simp)
            · exact absurd hji' hji
        · subst hj
          exact hchildn e
      have hmat1 : matInv vs1 D := by
        intro r j hr0 hrD hnode
        rcases hchar1 r j hnode with h' | ⟨hreq, hj⟩
        · have hjlt : j < vs.length := nodeAt_target_lt vs hb hlen r j h'
          rw [hmats j hjlt]
          exact hmat r j hr0 hrD h'
        · subst hj
          exact hmatn
      have hq1 : nodeAt vs1 0 (q ++ [d]) vs.length := by
        refine (nodeAt_snoc vs1 q d 0 vs.length).mpr
          ⟨i, nodeAt_mono vs vs1 hlinkle1 q 0 i hq, ?_⟩
        exact (hflinks i d vs.length).mpr (Or.inr ⟨rfl, rfl, rfl⟩)
      have hD' : (q ++ [d]).length + rest.length = D := by
        simp only [List.length_append, List.length_cons, List.length_nil] at hD ⊢
        omega
      have spec := ih vs1 vs.length (q ++ [d]) hb1 hs1 hleaf1 hmat1
        (by rw [hlen1]; exact Nat.succ_pos _) hq1 hD'
      obtain ⟨sb, ss, sl, sm, slink, slen, ⟨e0, he0⟩, schar, e, he, hmate⟩ := spec
      rw [hGo]
      have hlinkd : (getV (insertGo vs1 vs.length m rest) i).children d
          = some vs.length :=
        slink i d vs.length ((hflinks i d vs.length).mpr (Or.inr ⟨rfl, rfl, rfl⟩))
      refine ⟨sb, ss, sl, sm, ?_, ?_, ?_, ?_, ?_⟩
      · exact linkLe_trans hlinkle1 slink
      · omega
      · exact ⟨e0, vs.length, hlinkd, he0⟩
      · intro r j h
        rcases schar r j h with h' | hpre
        · rcases hchar1 r j h' with h'' | ⟨hreq, _⟩
          · exact Or.inl h''
          · right
            rw [hreq]
            exact ⟨rest, by simp⟩
        · right
          rw [List.append_assoc] at hpre
          exact hpre
      · exact ⟨e, ⟨vs.length, hlinkd, he⟩, hmate⟩

end SVO
namespace SVO

/-- A successful descent reaches the node at the digit path and returns the
parent stack matching the path. -/
theorem descendGo_some :
    ∀ (p : List (Fin 8)) (vs : List Voxel) (i : Nat) (acc : List (Nat × Fin 8))
      (q : List (Fin 8)) (leaf : Nat) (stack : List (Nat × Fin 8)),
      nodeAt vs 0 q i → isChainPath vs q i acc →
      descendGo vs i acc p = some (leaf, stack) →
      nodeAt vs 0 (q ++ p) leaf ∧ isChainPath vs (q ++ p) leaf stack := by
  intro p
  induction p with
  | nil =>
    intro vs i acc q leaf stack hq hch h
    rw [descendGo] at h
    injection h with h'
    injection h' with h1 h2
    subst h1
    subst h2
    simpa using ⟨hq, hch⟩
  | cons d rest ih =>
    intro vs i acc q leaf stack hq hch h
    rw [descendGo] at h
    cases hlink : (getV vs i).children d with
    | none => rw [hlink] at h; exact absurd h (by simp)
    | some t =>
      rw [hlink] at h
      have hqd : nodeAt vs 0 (q ++ [d]) t := (nodeAt_snoc vs q d 0 t).mpr ⟨i, hq, hlink⟩
      have hch' : isChainPath vs (q ++ [d]) t ((i, d) :: acc) :=
        ⟨q, rfl, hq, hlink, hch⟩
      have := ih vs t ((i, d) :: acc) (q ++ [d]) leaf stack hqd hch' h
      rw [List.append_assoc] at this
      simpa using this

/-- A failed descent means the digit path is broken. -/
theorem descendGo_none :
    ∀ (p : List (Fin 8)) (vs : List Voxel) (i : Nat) (acc : List (Nat × Fin 8)),
      descendGo vs i acc p = none → ¬ hasPath vs i p := by
  intro p
  induction p with
  | nil =>
    intro vs i acc h
    rw [descendGo] at h
    exact absurd h (by simp)
  | cons d rest ih =>
    intro vs i acc h ⟨j, t, hlink, hrest⟩
    rw [descendGo, hlink] at h
    exact ih vs t ((i, d) :: acc) h ⟨j, hrest⟩

/-- Removing one link: a path of the old arena either survives or passes
through the removed link. -/
theorem nodeAt_unlink (vs : List Voxel) (a : Nat) (δ : Fin 8) :
    ∀ (r : List (Fin 8)) (k j : Nat), nodeAt vs k r j →
      nodeAt (setChild vs a δ none) k r j ∨
        ∃ r₁ r₂, r = r₁ ++ δ :: r₂ ∧ nodeAt vs k r₁ a := by
  intro r
  induction r with
  | nil => intro k j h; exact Or.inl h
  | cons e r' ih =>
    rintro k j ⟨t, ht, hrest⟩
    by_cases hka : k = a ∧ e = δ
    · obtain ⟨rfl, rfl⟩ := hka
      exact Or.inr ⟨[], r', rfl, rfl⟩
    · have hlink' : (getV (setChild vs a δ none) k).children e = some t := by
        by_cases hk : k = a
        · subst hk
          by_cases hklen : k < vs.length
          · rw [setChild_children_self _ _ _ _ hklen]
            have heδ : ¬ e = δ := fun he => hka ⟨rfl, he⟩
            rw [if_neg heδ]
            exact ht
          · rw [setChild, setV, List.set_eq_of_length_le (Nat.le_of_not_lt hklen)]
            exact ht
        · rw [setChild_getV_ne _ _ _ _ _ hk]
          exact ht
      rcases ih t j hrest with h' | ⟨r₁, r₂, hr, hnode⟩
      · exact Or.inl ⟨t, hlink', h'⟩
      · exact Or.inr ⟨e :: r₁, r₂, by rw [hr]; rfl, ⟨t, ht, hnode⟩⟩

/-- Links not sourced at the unlinked node survive. -/
theorem link_unlink_ne (vs : List Voxel) (a : Nat) (δ : Fin 8)
    (k : Nat) (e : Fin 8) (j : Nat) (hk : k ≠ a)
    (h : (getV vs k).children e = some j) :
    (getV (setChild vs a δ none) k).children e = some j := by
  rw [setChild_getV_ne _ _ _ _ _ hk]
  exact h

/-- All links of the unlinked arena come from the original one. -/
theorem linkLe_unlink (vs : List Voxel) (a : Nat) (δ : Fin 8) :
    linkLe (setChild vs a δ none) vs := by
  intro k e j h
  by_cases hk : k = a
  · subst hk
    by_cases hklen : k < vs.length
    · rw [setChild_children_self _ _ _ _ hklen] at h
      by_cases he : e = δ
      · rw [if_pos he] at h
        exact absurd h (by simp)
      · rw [if_neg he] at h
        exact h
    · rw [setChild, setV, List.set_eq_of_length_le (Nat.le_of_not_lt hklen)] at h
      exact h
  · rw [setChild_getV_ne _ _ _ _ _ hk] at h
    exact h

/-- A path ending at or above the unlinked node (in arena index order)
never uses the removed link, because indices strictly increase along
paths; it therefore survives the unlinking. -/
theorem nodeAt_unlink_le (vs : List Voxel) (hb : boundsInv vs)
    (a : Nat) (δ : Fin 8) (r : List (Fin 8)) (k x : Nat)
    (h : nodeAt vs k r x) (hxa : x ≤ a) :
    nodeAt (setChild vs a δ none) k r x := by
  rcases nodeAt_unlink vs a δ r k x h with h' | ⟨r₁, r₂, hr, hnode⟩
  · exact h'
  · exfalso
    subst hr
    rcases (nodeAt_append vs r₁ (δ :: r₂) k x).mp h with ⟨t, ht1, ht2⟩
    have hta : t = a := nodeAt_functional vs r₁ k t a ht1 hnode
    subst hta
    have := (nodeAt_lt vs hb (δ :: r₂) t x ht2).2 (by simp)
    omega

/-- The chain facts for the remaining stack survive unlinking the current
chain link, because they live strictly above it. -/
theorem isChainPath_unlink (vs : List Voxel) (hb : boundsInv vs)
    (a : Nat) (δ : Fin 8) :
    ∀ (stack : List (Nat × Fin 8)) (pf : List (Fin 8)) (cur : Nat),
      isChainPath vs pf cur stack →
      nodeAt vs 0 pf cur →
      cur ≤ a →
      isChainPath (setChild vs a δ none) pf cur stack := by
  intro stack
  induction stack with
  | nil => intro pf cur h _ _; exact h
  | cons pd rest ih =>
    rintro pf cur ⟨pref, hpf, hpref, hlink, hch⟩ hnode hca
    have hpar_lt : pd.1 < cur := (hb pd.1 pd.2 cur hlink).1
    refine ⟨pref, hpf, ?_, ?_, ?_⟩
    · exact nodeAt_unlink_le vs hb a δ pref 0 pd.1 hpref (by omega)
    · exact link_unlink_ne vs a δ pd.1 pd.2 cur (by omega) hlink
    · exact ih pref pd.1 hch hpref (by omega)

end SVO
namespace SVO

/-- Full specification of the unwinding loop: it only removes links (each
one a parent-stack link whose child has become empty), keeps lengths and
materials, preserves every invariant including the no-stub property, keeps
every full-depth root path that is not a prefix of the current node's path,
and guarantees that the first stack link is gone whenever the starting node
already satisfies the unlink test. -/
theorem pruneGo_spec (D : Nat) :
    ∀ (stack : List (Nat × Fin 8)) (vs : List Voxel) (cur : Nat)
      (curPath : List (Fin 8)),
      boundsInv vs → singleParentInv vs → leafInv vs D → matInv vs D →
      (∀ r x, 0 < r.length → r.length < D → nodeAt vs 0 r x → x ≠ cur →
        ∃ (e : Fin 8) (t : Nat), (getV vs x).children e = some t) →
      nodeAt vs 0 curPath cur → isChainPath vs curPath cur stack →
      0 < vs.length →
      (∀ k, (getV (pruneGo vs cur stack) k).material = (getV vs k).material) ∧
      (pruneGo vs cur stack).length = vs.length ∧
      linkLe (pruneGo vs cur stack) vs ∧
      boundsInv (pruneGo vs cur stack) ∧
      singleParentInv (pruneGo vs cur stack) ∧
      leafInv (pruneGo vs cur stack) D ∧
      matInv (pruneGo vs cur stack) D ∧
      stubInv (pruneGo vs cur stack) D ∧
      (∀ r j, r.length = D → nodeAt vs 0 r j → ¬ (r <+: curPath) →
        nodeAt (pruneGo vs cur stack) 0 r j) ∧
      (∀ (par : Nat) (δ : Fin 8) (rest : List (Nat × Fin 8)),
        stack = (par, δ) :: rest →
        (getV vs cur).isEmptyNode = true → (getV vs cur).material = 0 →
        (getV (pruneGo vs cur stack) par).children δ = none) := by
  intro stack
  induction stack with
  | nil =>
    intro vs cur curPath hb hs hleaf hmat hstub hnode hch hlen
    have hcp : curPath = [] := hch
    subst hcp
    have hcur0 : cur = 0 := hnode
    subst hcur0
    refine ⟨fun k => rfl, rfl, linkLe_refl vs, hb, hs, hleaf, hmat, ?_, ?_, ?_⟩
    · intro r x hr0 hrD hx
      refine hstub r x hr0 hrD hx ?_
      intro hx0
      subst hx0
      cases r with
      | nil => simp at hr0
      | cons e r' =>
        have hgt := (nodeAt_lt vs hb (e :: r') 0 0 hx).2 (by simp)
        omega
    · intro r j _ h _
      exact h
    · intro par δ rest h
      exact absurd h (by simp)
  | cons pd rest ih =>
    obtain ⟨par, δ⟩ := pd
    intro vs cur curPath hb hs hleaf hmat hstub hnode hch hlen
    obtain ⟨pref, hcp, hpref, hlink, hchrest⟩ := hch
    have hparcur : par < cur := (hb par δ cur hlink).1
    have hcurlen : cur < vs.length := (hb par δ cur hlink).2
    have hparlen : par < vs.length := by omega
    by_cases hcond : (getV vs cur).isEmptyNode = true ∧ (getV vs cur).material = 0
    · have hred : pruneGo vs cur ((par, δ) :: rest)
          = pruneGo (setChild vs par δ none) par rest := by
        rw [pruneGo, if_pos hcond]
      have hcur_childless : ∀ e, (getV vs cur).children e = none :=
        (isEmptyNode_iff _).mp hcond.1
      set vs1 := setChild vs par δ none with hvs1
      have hlen1 : vs1.length = vs.length := length_setChild _ _ _ _
      have hsub1 : linkLe vs1 vs := linkLe_unlink vs par δ
      have hb1 : boundsInv vs1 := by
        intro a e j h
        have := hb a e j (hsub1 a e j h)
        omega
      have hs1 : singleParentInv vs1 := by
        intro a e a' e' j h h'
        exact hs a e a' e' j (hsub1 a e j h) (hsub1 a' e' j h')
      have hmats1 : ∀ k, (getV vs1 k).material = (getV vs k).material :=
        fun k => setChild_material vs par δ none k
      have hmono1 : ∀ r k j, nodeAt vs1 k r j → nodeAt vs k r j :=
        fun r k j h => nodeAt_mono vs1 vs hsub1 r k j h
      have hleaf1 : leafInv vs1 D := by
        intro r j hr h e
        have hvs := hleaf r j hr (hmono1 r 0 j h) e
        cases hcase : (getV vs1 j).children e with
        | none => rfl
        | some x =>
          have := hsub1 j e x hcase
          rw [hvs] at this
          exact absurd this (by simp)
      have hmat1 : matInv vs1 D := by
        intro r j hr0 hrD h
        rw [hmats1 j]
        exact hmat r j hr0 hrD (hmono1 r 0 j h)
      have hlinknone : (getV vs1 par).children δ = none := by
        rw [hvs1, setChild_children_self _ _ _ _ hparlen, if_pos rfl]
      have hcur_unreach : ∀ r, ¬ nodeAt vs1 0 r cur := by
        intro r hr
        have hrvs := hmono1 r 0 cur hr
        have hreq : r = curPath := uniquePath vs hb hs r curPath cur hrvs hnode
        subst hreq
        rw [hcp] at hr
        rcases (nodeAt_snoc vs1 pref δ 0 cur).mp hr with ⟨t, ht, hlinkt⟩
        have htpar : t = par :=
          nodeAt_functional vs pref 0 t par (hmono1 pref 0 t ht) hpref
        subst htpar
        rw [hlinknone] at hlinkt
        exact absurd hlinkt (by simp)
      have hstub1 : ∀ r x, 0 < r.length → r.length < D → nodeAt vs1 0 r x →
          x ≠ par → ∃ (e : Fin 8) (t : Nat), (getV vs1 x).children e = some t := by
        intro r x hr0 hrD h hxpar
        have hxcur : x ≠ cur := by
          intro hxc
          subst hxc
          exact hcur_unreach r h
        obtain ⟨e, t, het⟩ := hstub r x hr0 hrD (hmono1 r 0 x h) hxcur
        exact ⟨e, t, link_unlink_ne vs par δ x e t hxpar het⟩
      have hpref1 : nodeAt vs1 0 pref par :=
        nodeAt_unlink_le vs hb par δ pref 0 par hpref (le_refl par)
      have hch1 : isChainPath vs1 pref par rest :=
        isChainPath_unlink vs hb par δ rest pref par hchrest hpref (le_refl par)
      have spec := ih vs1 par pref hb1 hs1 hleaf1 hmat1 hstub1 hpref1 hch1
        (by omega)
      obtain ⟨smat, slen, ssub, sbounds, ssingle, sleaf, smatinv, sstub, spres,
        srem⟩ := spec
      rw [hred]
      refine ⟨?_, ?_, ?_, sbounds, ssingle, sleaf, smatinv, sstub, ?_, ?_⟩
      · intro k
        rw [smat k, hmats1 k]
      · rw [slen, hlen1]
      · exact linkLe_trans ssub hsub1
      · intro r j hr h hpre
        have hr1 : nodeAt vs1 0 r j := by
          rcases nodeAt_unlink vs par δ r 0 j h with h' | ⟨r₁, r₂, hreq, hnode₁⟩
          · exact h'
          · exfalso
            have hr₁pref : r₁ = pref := uniquePath vs hb hs r₁ pref par hnode₁ hpref
            subst hr₁pref
            subst hreq
            rcases (nodeAt_append vs r₁ (δ :: r₂) 0 j).mp h with ⟨t, ht1, ht2⟩
            have htpar : t = par := nodeAt_functional vs r₁ 0 t par ht1 hnode₁
            subst htpar
            obtain ⟨t', hlt', hrest'⟩ := ht2
            rw [hlink] at hlt'
            injection hlt' with hteq
            subst hteq
            cases r₂ with
            | nil =>
              exact hpre (by rw [hcp])
            | cons e' r₃ =>
              obtain ⟨s, hls, _⟩ := hrest'
              rw [hcur_childless e'] at hls
              exact absurd hls (by simp)
        refine spres r j hr hr1 ?_
        intro hrpref
        apply hpre
        rw [hcp]
        exact hrpref.trans (List.prefix_append pref [δ])
      · intro par' δ' rest' heq _ _
        injection heq with heq1 heq2
        injection heq1 with heq1a heq1b
        subst heq1a
        subst heq1b
        subst heq2
        cases hcase : (getV (pruneGo vs1 par rest) par).children δ with
        | none => rfl
        | some x =>
          have := ssub par δ x hcase
          rw [hlinknone] at this
          exact absurd this (by simp)
    · have hred : pruneGo vs cur ((par, δ) :: rest) = vs := by
        rw [pruneGo, if_neg hcond]
      rw [hred]
      refine ⟨fun k => rfl, rfl, linkLe_refl vs, hb, hs, hleaf, hmat, ?_, ?_, ?_⟩
      · intro r x hr0 hrD hx
        by_cases hxcur : x = cur
        · subst hxcur
          have hreq : r = curPath := uniquePath vs hb hs r curPath x hx hnode
          subst hreq
          have hmatx : (getV vs x).material = 0 := hmat _ x hr0 hrD hx
          have hnotempty : ¬ (getV vs x).isEmptyNode = true := by
            intro he
            exact hcond ⟨he, hmatx⟩
          rw [isEmptyNode_iff] at hnotempty
          push_neg at hnotempty
          obtain ⟨e, he⟩ := hnotempty
          cases hc : (getV vs x).children e with
          | none => exact absurd hc he
          | some t => exact ⟨e, t, hc⟩
        · exact hstub r x hr0 hrD hx hxcur
      · intro r j _ h _
        exact h
      · intro par' δ' rest' heq hemp hm0
        exact absurd ⟨hemp, hm0⟩ hcond

end SVO
namespace SVO

/-- The parent-stack facts only depend on the child links. -/
theorem isChainPath_children_congr (vs vs' : List Voxel)
    (h : ∀ k, (getV vs' k).children = (getV vs k).children) :
    ∀ (stack : List (Nat × Fin 8)) (pf : List (Fin 8)) (cur : Nat),
      isChainPath vs pf cur stack → isChainPath vs' pf cur stack := by
  intro stack
  induction stack with
  | nil => intro pf cur hch; exact hch
  | cons pd rest ih =>
    rintro pf cur ⟨pref, hpf, hpref, hlink, hch⟩
    refine ⟨pref, hpf, ?_, ?_, ih pref pd.1 hch⟩
    · exact (nodeAt_children_congr vs vs' h pref 0 pd.1).mpr hpref
    · rw [h pd.1]
      exact hlink

/-- Full specification of `remove` on a digit path of full depth: the
invariants survive, the arena length is unchanged, links only disappear,
the removed path is no longer present, and every other full-depth path
survives. -/
theorem removePath_spec (D : Nat) (p : List (Fin 8)) (vs : List Voxel)
    (hD : p.length = D) (hD1 : 1 ≤ D)
    (hb : boundsInv vs) (hs : singleParentInv vs) (hleaf : leafInv vs D)
    (hmat : matInv vs D) (hstub : stubInv vs D) (hlen : 0 < vs.length) :
    boundsInv (removePath vs p) ∧
    singleParentInv (removePath vs p) ∧
    leafInv (removePath vs p) D ∧
    matInv (removePath vs p) D ∧
    stubInv (removePath vs p) D ∧
    (removePath vs p).length = vs.length ∧
    linkLe (removePath vs p) vs ∧
    ¬ hasPath (removePath vs p) 0 p ∧
    (∀ r j, r.length = D → r ≠ p → nodeAt vs 0 r j → nodeAt (removePath vs p) 0 r j) := by
  cases hdesc : descendGo vs 0 [] p with
  | none =>
    have hred : removePath vs p = vs := by
      rw [removePath, hdesc]
    rw [hred]
    exact ⟨hb, hs, hleaf, hmat, hstub, rfl, linkLe_refl vs,
      descendGo_none p vs 0 [] hdesc, fun r j _ _ h => h⟩
  | some pr =>
    obtain ⟨leaf, stack⟩ := pr
    have hred : removePath vs p = pruneGo (setMat vs leaf 0) leaf stack := by
      rw [removePath, hdesc]
    have hpair := descendGo_some p vs 0 [] [] leaf stack rfl rfl hdesc
    rw [List.nil_append] at hpair
    obtain ⟨hpleaf, hchain⟩ := hpair
    have hleaflt : leaf < vs.length := nodeAt_target_lt vs hb hlen p leaf hpleaf
    have hchild0 : ∀ k, (getV (setMat vs leaf 0) k).children = (getV vs k).children :=
      fun k => setMat_children vs leaf 0 k
    have hcongr0 := nodeAt_children_congr vs (setMat vs leaf 0) hchild0
    set vs0 := setMat vs leaf 0 with hvs0
    have hlen0 : vs0.length = vs.length := length_setMat _ _ _
    have hb0 : boundsInv vs0 := by
      intro a e j h
      rw [hchild0] at h
      have := hb a e j h
      omega
    have hs0 : singleParentInv vs0 := by
      intro a e a' e' j h h'
      rw [hchild0] at h h'
      exact hs a e a' e' j h h'
    have hleaf0 : leafInv vs0 D := by
      intro r j hr h e
      rw [hchild0]
      exact hleaf r j hr ((hcongr0 r 0 j).mp h) e
    have hmat0 : matInv vs0 D := by
      intro r j hr0 hrD h
      by_cases hj : j = leaf
      · subst hj
        exact setMat_material_self vs j 0 hleaflt
      · rw [setMat_material_ne vs leaf 0 j hj]
        exact hmat r j hr0 hrD ((hcongr0 r 0 j).mp h)
    have hstub0 : ∀ r x, 0 < r.length → r.length < D → nodeAt vs0 0 r x →
        x ≠ leaf → ∃ (e : Fin 8) (t : Nat), (getV vs0 x).children e = some t := by
      intro r x hr0 hrD h _
      obtain ⟨e, t, het⟩ := hstub r x hr0 hrD ((hcongr0 r 0 x).mp h)
      refine ⟨e, t, ?_⟩
      rw [hchild0]
      exact het
    have hpleaf0 : nodeAt vs0 0 p leaf := (hcongr0 p 0 leaf).mpr hpleaf
    have hchain0 : isChainPath vs0 p leaf stack :=
      isChainPath_children_congr vs vs0 hchild0 stack p leaf hchain
    have spec := pruneGo_spec D stack vs0 leaf p hb0 hs0 hleaf0 hmat0 hstub0
      hpleaf0 hchain0 (by omega)
    obtain ⟨smat, slen, ssub, sbounds, ssingle, sleaf, smatinv, sstub, spres,
      srem⟩ := spec
    rw [hred]
    have hsub0 : linkLe vs0 vs := by
      intro a e j h
      rw [hchild0] at h
      exact h
    have hsubfull : linkLe (pruneGo vs0 leaf stack) vs := linkLe_trans ssub hsub0
    refine ⟨sbounds, ssingle, sleaf, smatinv, sstub, by omega, hsubfull, ?_, ?_⟩
    · cases hst : stack with
      | nil =>
        exfalso
        rw [hst] at hchain
        have : p = [] := hchain
        rw [this] at hD
        simp at hD
        omega
      | cons pd rest =>
        obtain ⟨par, δ⟩ := pd
        rw [hst] at hchain0
        obtain ⟨pref, hcp, hpref0, hlinkpd, _⟩ := hchain0
        have hempty : (getV vs0 leaf).isEmptyNode = true := by
          rw [isEmptyNode_iff]
          intro e
          rw [hchild0]
          exact hleaf p leaf hD hpleaf e
        have hm0 : (getV vs0 leaf).material = 0 := setMat_material_self vs leaf 0 hleaflt
        have hnone := srem par δ rest hst hempty hm0
        rintro ⟨j, hj⟩
        rw [← hst] at hj
        rw [hcp] at hj
        rcases (nodeAt_snoc _ pref δ 0 j).mp hj with ⟨t, ht, hlinkt⟩
        have htvs0 : nodeAt vs0 0 pref t :=
          nodeAt_mono _ vs0 ssub pref 0 t ht
        have htpar : t = par := nodeAt_functional vs0 pref 0 t par htvs0 hpref0
        subst htpar
        rw [hnone] at hlinkt
        exact absurd hlinkt (by simp)
    · intro r j hr hrp h
      refine spres r j hr ((hcongr0 r 0 j).mpr h) ?_
      intro hpre
      exact hrp (hpre.eq_of_length (by omega))

end SVO
namespace SVO

theorem descDigits_length (code : Nat) : ∀ D, (descDigits code D).length = D := by
  intro D
  induction D with
  | zero => rfl
  | succ n ih => simp [descDigits, ih]

theorem tzF_pow : ∀ k fuel, k < fuel → tzF fuel (2 ^ k) = k := by
  intro k
  induction k with
  | zero =>
    intro fuel hf
    cases fuel with
    | zero => omega
    | succ f => simp [tzF]
  | succ n ih =>
    intro fuel hf
    cases fuel with
    | zero => omega
    | succ f =>
      have h1 : 2 ^ (n + 1) % 2 = 0 := by
        have : (2 : Nat) ∣ 2 ^ (n + 1) := dvd_pow_self 2 (by omega)
        omega
      have h2 : 2 ^ (n + 1) / 2 = 2 ^ n := by
        rw [Nat.pow_succ]
        omega
      rw [tzF, if_neg (by omega), h2, ih f (by omega)]
      omega

theorem trailing_zeros_pow (k : Nat) (hk : k < 32) : trailing_zeros (2 ^ k) = k :=
  tzF_pow k 32 hk

/-- The fresh one-node arena has no links at all. -/
theorem fresh_no_links (M : Nat) :
    ∀ (i : Nat) (d : Fin 8) (j : Nat),
      (getV [(⟨fun _ => none, M⟩ : Voxel)] i).children d ≠ some j := by
  intro i d j h
  cases i with
  | zero => exact absurd h (by simp [getV])
  | succ n =>
    rw [getV_out _ _ (by simp)] at h
    exact absurd h (by simp [Voxel.emptyNode])

/-- All invariants hold for the fresh one-node arena at any depth. -/
theorem fresh_inv (M D : Nat) :
    boundsInv [(⟨fun _ => none, M⟩ : Voxel)] ∧
    singleParentInv [(⟨fun _ => none, M⟩ : Voxel)] ∧
    leafInv [(⟨fun _ => none, M⟩ : Voxel)] D ∧
    matInv [(⟨fun _ => none, M⟩ : Voxel)] D ∧
    stubInv [(⟨fun _ => none, M⟩ : Voxel)] D ∧
    (∀ r j, 0 < r.length → ¬ nodeAt [(⟨fun _ => none, M⟩ : Voxel)] 0 r j) := by
  have hnopath : ∀ (r : List (Fin 8)) (j : Nat), 0 < r.length →
      ¬ nodeAt [(⟨fun _ => none, M⟩ : Voxel)] 0 r j := by
    intro r j hr hnode
    cases r with
    | nil => simp at hr
    | cons d r' =>
      obtain ⟨t, ht, _⟩ := hnode
      exact fresh_no_links M 0 d t ht
  refine ⟨?_, ?_, ?_, ?_, ?_, hnopath⟩
  · intro i d j h
    exact absurd h (fresh_no_links M i d j)
  · intro i d i' d' j h _
    exact absurd h (fresh_no_links M i d j)
  · intro r j hr hnode d
    cases hr' : r with
    | nil =>
      subst hr'
      rw [nodeAt] at hnode
      subst hnode
      rfl
    | cons e r' =>
      subst hr'
      exact absurd hnode (hnopath _ j (by simp))
  · intro r j hr0 _ hnode
    exact absurd hnode (hnopath r j hr0)
  · intro r j hr0 _ hnode
    exact absurd hnode (hnopath r j hr0)

/-- A descent along an existing path returns the node at its end. -/
theorem getGo_nodeAt : ∀ (p : List (Fin 8)) (vs : List Voxel) (i j : Nat),
    nodeAt vs i p j → getGo vs i p = some (getV vs j) := by
  intro p
  induction p with
  | nil =>
    intro vs i j h
    rw [nodeAt] at h
    subst h
    rfl
  | cons d rest ih =>
    rintro vs i j ⟨t, ht, hrest⟩
    rw [getGo, ht]
    exact ih vs t j hrest

/-- The insert fold over a list of full-depth digit paths keeps every
invariant, and the only full-depth paths it creates are the inserted
ones. -/
theorem foldInsert_spec (m D : Nat) (hD : 1 ≤ D) :
    ∀ (paths : List (List (Fin 8))) (vs : List Voxel),
      (∀ p ∈ paths, p.length = D) →
      boundsInv vs → singleParentInv vs → leafInv vs D → matInv vs D →
      stubInv vs D → 0 < vs.length →
      boundsInv (paths.foldl (fun a p => insertGo a 0 m p) vs) ∧
      singleParentInv (paths.foldl (fun a p => insertGo a 0 m p) vs) ∧
      leafInv (paths.foldl (fun a p => insertGo a 0 m p) vs) D ∧
      matInv (paths.foldl (fun a p => insertGo a 0 m p) vs) D ∧
      stubInv (paths.foldl (fun a p => insertGo a 0 m p) vs) D ∧
      0 < (paths.foldl (fun a p => insertGo a 0 m p) vs).length ∧
      (∀ r j, r.length = D →
        nodeAt (paths.foldl (fun a p => insertGo a 0 m p) vs) 0 r j →
        hasPath vs 0 r ∨ r ∈ paths) := by
  intro paths
  induction paths with
  | nil =>
    intro vs hp hb hs hleaf hmat hstub hlen
    exact ⟨hb, hs, hleaf, hmat, hstub, hlen, fun r j _ h => Or.inl ⟨j, h⟩⟩
  | cons p ps ih =>
    intro vs hp hb hs hleaf hmat hstub hlen
    have hpD : p.length = D := hp p (List.mem_cons_self p ps)
    have hroot : nodeAt vs 0 [] 0 := rfl
    have spec := insertGo_spec m D p vs 0 [] hb hs hleaf hmat hlen hroot
      (by simpa using hpD)
    obtain ⟨sb, ss, sl, sm, slink, slen, shas, schar, e1, he1, _⟩ := spec
    set vs1 := insertGo vs 0 m p with hvs1
    have hstub1 : stubInv vs1 D := by
      intro r x hr0 hrD hnode
      rcases schar r x hnode with hold | hpre
      · obtain ⟨e, t, het⟩ := hstub r x hr0 hrD hold
        exact ⟨e, t, slink x e t het⟩
      · rw [List.nil_append] at hpre
        obtain ⟨tail, htail⟩ := hpre
        cases htail' : tail with
        | nil =>
          exfalso
          rw [htail', List.append_nil] at htail
          subst htail
          omega
        | cons d' tail' =>
          rw [htail'] at htail
          obtain ⟨ef, hef⟩ := shas
          rw [← htail] at hef
          rcases (nodeAt_append vs1 r (d' :: tail') 0 ef).mp hef with ⟨t, ht1, ht2⟩
          have htx : t = x := nodeAt_functional vs1 r 0 t x ht1 hnode
          subst htx
          obtain ⟨t2, hlink2, _⟩ := ht2
          exact ⟨d', t2, hlink2⟩
    have spec2 := ih vs1 (fun q hq => hp q (List.mem_cons_of_mem p hq))
      sb ss sl sm hstub1 (by omega)
    obtain ⟨rb, rs, rl, rm, rstub, rlen, rchar⟩ := spec2
    rw [List.foldl_cons]
    refine ⟨rb, rs, rl, rm, rstub, rlen, ?_⟩
    intro r j hr hnode
    rcases rchar r j hr hnode with ⟨j', hj'⟩ | hin
    · rcases schar r j' hj' with hold | hpre
      · exact Or.inl ⟨j', hold⟩
      · rw [List.nil_append] at hpre
        right
        rw [hpre.eq_of_length (by omega)]
        exact List.mem_cons_self p ps
    · exact Or.inr (List.mem_cons_of_mem p hin)

/-- The remove fold over a list of full-depth digit paths that covers every
full-depth path of the arena keeps every invariant, never changes the arena
length, and leaves no full-depth path at all. -/
theorem foldRemove_spec (D : Nat) (hD : 1 ≤ D) :
    ∀ (paths : List (List (Fin 8))) (vs : List Voxel),
      (∀ p ∈ paths, p.length = D) →
      boundsInv vs → singleParentInv vs → leafInv vs D → matInv vs D →
      stubInv vs D → 0 < vs.length →
      (∀ r j, r.length = D → nodeAt vs 0 r j → r ∈ paths) →
      boundsInv (paths.foldl removePath vs) ∧
      singleParentInv (paths.foldl removePath vs) ∧
      stubInv (paths.foldl removePath vs) D ∧
      (paths.foldl removePath vs).length = vs.length ∧
      (∀ r, r.length = D → ¬ hasPath (paths.foldl removePath vs) 0 r) := by
  intro paths
  induction paths with
  | nil =>
    intro vs hp hb hs hleaf hmat hstub hlen hcover
    refine ⟨hb, hs, hstub, rfl, ?_⟩
    rintro r hr ⟨j, hj⟩
    exact absurd (hcover r j hr hj) (by simp)
  | cons p ps ih =>
    intro vs hp hb hs hleaf hmat hstub hlen hcover
    have hpD : p.length = D := hp p (List.mem_cons_self p ps)
    have spec := removePath_spec D p vs hpD hD hb hs hleaf hmat hstub hlen
    obtain ⟨rb, rs, rl, rm, rstub, rlen, rsub, rgone, rkeep⟩ := spec
    set vs1 := removePath vs p with hvs1
    have hcover1 : ∀ r j, r.length = D → nodeAt vs1 0 r j → r ∈ ps := by
      intro r j hr hnode
      have hvs := nodeAt_mono vs1 vs rsub r 0 j hnode
      have hmem := hcover r j hr hvs
      have hrp : r ≠ p := by
        intro he
        subst he
        exact rgone ⟨j, hnode⟩
      rcases List.mem_cons.mp hmem with he | hin
      · exact absurd he hrp
      · exact hin
    have spec2 := ih vs1 (fun q hq => hp q (List.mem_cons_of_mem p hq))
      rb rs rl rm rstub (by omega) hcover1
    obtain ⟨qb, qs, qstub, qlen, qnone⟩ := spec2
    rw [List.foldl_cons, ← hvs1]
    exact ⟨qb, qs, qstub, by omega, qnone⟩

/-- An invariant-satisfying arena with no full-depth path has a childless
root. -/
theorem no_full_root_empty (vs : List Voxel) (D : Nat) (hD : 1 ≤ D)
    (hb : boundsInv vs) (hstub : stubInv vs D)
    (hnone : ∀ r, r.length = D → ¬ hasPath vs 0 r) :
    ∀ d, (getV vs 0).children d = none := by
  have ext : ∀ n (r : List (Fin 8)) (x : Nat), r.length + n = D → 0 < r.length →
      nodeAt vs 0 r x → ∃ r', r'.length = D ∧ hasPath vs 0 r' := by
    intro n
    induction n with
    | zero =>
      intro r x hr hr0 hnode
      exact ⟨r, by omega, x, hnode⟩
    | succ n ihn =>
      intro r x hr hr0 hnode
      obtain ⟨e, t, het⟩ := hstub r x hr0 (by omega) hnode
      have hsnoc : nodeAt vs 0 (r ++ [e]) t := (nodeAt_snoc vs r e 0 t).mpr ⟨x, hnode, het⟩
      exact ihn (r ++ [e]) t (by simp; omega) (by simp) hsnoc
  intro d
  cases hc : (getV vs 0).children d with
  | none => rfl
  | some j =>
    exfalso
    have h1 : nodeAt vs 0 [d] j := ⟨j, hc, rfl⟩
    obtain ⟨r', hr', hhas⟩ := ext (D - 1) [d] j (by simp; omega) (by simp) h1
    exact hnone r' hr' hhas

/-- The voxel arena of `insertAll` is the insert fold over the cells' digit
paths, and the size never changes. -/
theorem insertAll_voxels (m : Nat) :
    ∀ (cells : List (Nat × Nat × Nat)) (t : Octree),
      (insertAll t cells m).voxels =
        (cells.map fun c => descDigits (encode c.1 c.2.1 c.2.2)
          (trailing_zeros t.size)).foldl (fun a p => insertGo a 0 m p) t.voxels ∧
      (insertAll t cells m).size = t.size := by
  intro cells
  induction cells with
  | nil => intro t; exact ⟨rfl, rfl⟩
  | cons c cs ih =>
    intro t
    have step : insertAll t (c :: cs) m = insertAll (t.insert c.1 c.2.1 c.2.2 m) cs m :=
      rfl
    have hsize : (t.insert c.1 c.2.1 c.2.2 m).size = t.size := rfl
    have hvox : (t.insert c.1 c.2.1 c.2.2 m).voxels =
        insertGo t.voxels 0 m (descDigits (encode c.1 c.2.1 c.2.2)
          (trailing_zeros t.size)) := rfl
    rw [step]
    obtain ⟨ih1, ih2⟩ := ih (t.insert c.1 c.2.1 c.2.2 m)
    constructor
    · rw [ih1, hsize, hvox]
      rfl
    · rw [ih2, hsize]

/-- The voxel arena of `removeAll` is the remove fold over the cells' digit
paths, and the size never changes. -/
theorem removeAll_voxels :
    ∀ (cells : List (Nat × Nat × Nat)) (t : Octree),
      (removeAll t cells).voxels =
        (cells.map fun c => descDigits (encode c.1 c.2.1 c.2.2)
          (trailing_zeros t.size)).foldl removePath t.voxels ∧
      (removeAll t cells).size = t.size := by
  intro cells
  induction cells with
  | nil => intro t; exact ⟨rfl, rfl⟩
  | cons c cs ih =>
    intro t
    have step : removeAll t (c :: cs) = removeAll (t.remove c.1 c.2.1 c.2.2) cs := rfl
    have hsize : (t.remove c.1 c.2.1 c.2.2).size = t.size := rfl
    have hvox : (t.remove c.1 c.2.1 c.2.2).voxels =
        removePath t.voxels (descDigits (encode c.1 c.2.1 c.2.2)
          (trailing_zeros t.size)) := rfl
    rw [step]
    obtain ⟨ih1, ih2⟩ := ih (t.remove c.1 c.2.1 c.2.2)
    constructor
    · rw [ih1, hsize, hvox]
      rfl
    · rw [ih2, hsize]

end SVO
namespace SVO

set_option maxHeartbeats 1000000 in
/-- C9: for every power-of-two size 2^k, inserting every cell of the cubed
volume into a fresh pointer octree and then removing every cell leaves the
root voxel with no children, while the arena length after all removals
equals its length after all insertions. -/
theorem C9_prune_law (k m : Nat) (hk : k < 32) :
    (getV (removeAll (insertAll (Octree.emptyTree (2 ^ k)) (allCells (2 ^ k)) m)
        (allCells (2 ^ k))).voxels 0).isEmptyNode = true ∧
    (removeAll (insertAll (Octree.emptyTree (2 ^ k)) (allCells (2 ^ k)) m)
        (allCells (2 ^ k))).voxels.length
      = (insertAll (Octree.emptyTree (2 ^ k)) (allCells (2 ^ k)) m).voxels.length := by
  have htz : trailing_zeros (2 ^ k) = k := trailing_zeros_pow k hk
  rcases Nat.eq_zero_or_pos k with hk0 | hkpos
  · subst hk0
    have hN : (2 : Nat) ^ 0 = 1 := by norm_num
    rw [hN]
    have h1 : (insertAll (Octree.emptyTree 1) (allCells 1) m).voxels
        = setMat [(⟨fun _ => none, 4294967295⟩ : Voxel)] 0 m := rfl
    have h2 : (removeAll (insertAll (Octree.emptyTree 1) (allCells 1) m)
          (allCells 1)).voxels
        = setMat (setMat [(⟨fun _ => none, 4294967295⟩ : Voxel)] 0 m) 0 0 := rfl
    constructor
    · rw [h2, isEmptyNode_iff]
      intro d
      rw [setMat_children, setMat_children]
      rfl
    · rw [h2, h1, length_setMat]
  · have hD : 1 ≤ k := hkpos
    obtain ⟨hv1, hs1⟩ := insertAll_voxels m (allCells (2 ^ k)) (Octree.emptyTree (2 ^ k))
    obtain ⟨hv2, hs2⟩ := removeAll_voxels (allCells (2 ^ k))
        (insertAll (Octree.emptyTree (2 ^ k)) (allCells (2 ^ k)) m)
    have hsz : (Octree.emptyTree (2 ^ k)).size = 2 ^ k := rfl
    have hsz1 : (insertAll (Octree.emptyTree (2 ^ k)) (allCells (2 ^ k)) m).size
        = 2 ^ k := by rw [hs1, hsz]
    have hL0 : (Octree.emptyTree (2 ^ k)).voxels
        = [(⟨fun _ => none, 4294967295⟩ : Voxel)] := rfl
    rw [hsz, htz, hL0] at hv1
    rw [hsz1, htz] at hv2
    set L := (allCells (2 ^ k)).map
        (fun c => descDigits (encode c.1 c.2.1 c.2.2) k) with hL
    have hpaths : ∀ p ∈ L, p.length = k := by
      intro p hp
      rw [hL] at hp
      obtain ⟨c, _, rfl⟩ := List.mem_map.mp hp
      exact descDigits_length _ k
    obtain ⟨fb, fs, fl, fm, fstub, fno⟩ := fresh_inv 4294967295 k
    have spec1 := foldInsert_spec m k hD L
      [(⟨fun _ => none, 4294967295⟩ : Voxel)] hpaths fb fs fl fm fstub (by simp)
    obtain ⟨ib, is2, il, im2, istub, ilen, ichar⟩ := spec1
    have hcover : ∀ r j, r.length = k →
        nodeAt (L.foldl (fun a p => insertGo a 0 m p)
          [(⟨fun _ => none, 4294967295⟩ : Voxel)]) 0 r j → r ∈ L := by
      intro r j hr hnode
      rcases ichar r j hr hnode with ⟨j', hj'⟩ | hin
      · exact absurd hj' (fno r j' (by omega))
      · exact hin
    have spec2 := foldRemove_spec k hD L
      (L.foldl (fun a p => insertGo a 0 m p) [(⟨fun _ => none, 4294967295⟩ : Voxel)])
      hpaths ib is2 il im2 istub ilen hcover
    obtain ⟨qb, qs, qstub, qlen, qnone⟩ := spec2
    have hroot := no_full_root_empty _ k hD qb qstub qnone
    constructor
    · rw [hv2, hv1, isEmptyNode_iff]
      exact hroot
    · rw [hv2, hv1]
      exact qlen

/-- Witness: the prune law applied at size 2 with material 7. -/
theorem C9_prune_law_witness :
    1 < 32 ∧
    ((getV (removeAll (insertAll (Octree.emptyTree (2 ^ 1)) (allCells (2 ^ 1)) 7)
        (allCells (2 ^ 1))).voxels 0).isEmptyNode = true ∧
      (removeAll (insertAll (Octree.emptyTree (2 ^ 1)) (allCells (2 ^ 1)) 7)
          (allCells (2 ^ 1))).voxels.length
        = (insertAll (Octree.emptyTree (2 ^ 1)) (allCells (2 ^ 1)) 7).voxels.length) :=
  ⟨by decide, C9_prune_law 1 7 (by decide)⟩

/-- C10: in a pointer octree of size 64 the coordinates (0,0,0) and
(0,0,32) descend along identical child paths, so after inserting material
`m` at (0,0,0) a `get` at (0,0,32) returns a voxel carrying `m`, and a
subsequent insert of `m2` at (0,0,32) overwrites what `get` at (0,0,0)
reports. -/
theorem C10_coordinate_alias (m m2 : Nat) :
    (((Octree.emptyTree 64).insert 0 0 0 m).get 0 0 32).map Voxel.material = some m ∧
    ((((Octree.emptyTree 64).insert 0 0 0 m).insert 0 0 32 m2).get 0 0 0).map
        Voxel.material = some m2 ∧
    descDigits (encode 0 0 32) (trailing_zeros 64)
      = descDigits (encode 0 0 0) (trailing_zeros 64) := by
  have htz : trailing_zeros 64 = 6 := by decide
  have hdig : descDigits (encode 0 0 32) 6 = descDigits (encode 0 0 0) 6 := by decide
  have hplen : (descDigits (encode 0 0 0) 6).length = 6 := descDigits_length _ 6
  obtain ⟨fb, fs, fl, fm, fstub, _⟩ := fresh_inv 4294967295 6
  have spec1 := insertGo_spec m 6 (descDigits (encode 0 0 0) 6)
      [(⟨fun _ => none, 4294967295⟩ : Voxel)] 0 [] fb fs fl fm (by simp) rfl
      (by simpa using hplen)
  obtain ⟨sb, ss, sl, sm, slink, slen, shas, schar, e, he, hmate⟩ := spec1
  have hget1 : (((Octree.emptyTree 64).insert 0 0 0 m).get 0 0 32)
      = getGo (insertGo [(⟨fun _ => none, 4294967295⟩ : Voxel)] 0 m
          (descDigits (encode 0 0 0) (trailing_zeros 64))) 0
          (descDigits (encode 0 0 32) (trailing_zeros 64)) := by
    dsimp only [Octree.get, Octree.insert, Octree.emptyTree]
  rw [htz, hdig] at hget1
  have hlen1 : 0 < (insertGo [(⟨fun _ => none, 4294967295⟩ : Voxel)] 0 m
      (descDigits (encode 0 0 0) 6)).length := by
    have h1 : (1 : Nat) ≤ [(⟨fun _ => none, 4294967295⟩ : Voxel)].length := by simp
    omega
  have spec2 := insertGo_spec m2 6 (descDigits (encode 0 0 0) 6)
      (insertGo [(⟨fun _ => none, 4294967295⟩ : Voxel)] 0 m
        (descDigits (encode 0 0 0) 6)) 0 [] sb ss sl sm hlen1 rfl
      (by simpa using hplen)
  obtain ⟨_, _, _, _, _, _, _, _, e2, he2, hmate2⟩ := spec2
  have hget2 : ((((Octree.emptyTree 64).insert 0 0 0 m).insert 0 0 32 m2).get 0 0 0)
      = getGo (insertGo (insertGo [(⟨fun _ => none, 4294967295⟩ : Voxel)] 0 m
            (descDigits (encode 0 0 0) (trailing_zeros 64))) 0 m2
          (descDigits (encode 0 0 32) (trailing_zeros 64))) 0
          (descDigits (encode 0 0 0) (trailing_zeros 64)) := by
    dsimp only [Octree.get, Octree.insert, Octree.emptyTree]
  rw [htz, hdig] at hget2
  refine ⟨?_, ?_, by rw [htz]; exact hdig⟩
  · rw [hget1, getGo_nodeAt _ _ _ _ he]
    exact congrArg some hmate
  · rw [hget2, getGo_nodeAt _ _ _ _ he2]
    exact congrArg some hmate2

end SVO
